import Mathlib

/-!
Shallow embedding of the dependency-driven task orchestrator of the
agentic-design-patterns repository (planner-executor pattern).

Embedded source files:
* `src/agentic_patterns/patterns/planner-executor/schema/planner.py`
  (`PlannerTask`, `TasksPlan`),
* `src/agentic_patterns/patterns/planner-executor/schema/orchestrator.py`
  (`TaskOutput`, `OrchestratorResponse`),
* `src/agentic_patterns/patterns/planner-executor/core/pattern.py`
  (`PlannerExecutorPattern._orchestrate_tasks`, `_assign_task`),
* `src/agentic_patterns/patterns/planner-executor/tools/planner_executor/orchestrate_tasks.py`
  and `assign_task.py` (the standalone tool duplicates).

Modelling conventions:
* Python dicts become association lists with in-place update
  (`insertAssoc`), which matches Python's insertion-order semantics:
  a new key is appended at the end, an existing key keeps its position.
* The external worker agent (`Runner.run(worker, prompt)` plus the
  `MaxTurnsExceeded` exception) is modelled as a function
  `String → WorkerOutcome` of the outbound prompt: `ok out` is a normal
  return whose `final_output_as(TaskOutput)` parses as `out`;
  `maxTurnsWithResult out` is a `MaxTurnsExceeded` whose exception value
  carries a result object with truthy `final_output` parsing as `out`;
  `maxTurnsNoResult` is a `MaxTurnsExceeded` with no usable result;
  `fatal msg` is any other exception raised by the worker run.
* Exceptions become an explicit error channel `Option OrchError`
  threaded next to the state.  `keyError k` models a Python `KeyError`
  on key `k`; `workerFatal` a propagated worker exception; `maxTurns`
  the `MaxTurnsExceeded` exception itself when it is not caught (the
  standalone tool version has no handler); `nilPlan` the
  `ValueError("Cannot orchestrate an empty task plan.")` raised for an
  absent plan.
* The `while ready:` loop runs a batch per iteration; each batch is
  executed by cooperative asyncio tasks that only suspend while awaiting
  the worker.  Running the batch sequentially in creation order is a
  legal schedule of that event loop, and is the schedule embedded here;
  an exception aborts the orchestrator coroutine, discarding the partial
  response (the model stops the batch at the first error).  The loop is
  given `|plan| + 1` rounds of fuel; `fuelExhausted` is a model artifact
  proved unreachable for plans with unique task ids.
* Progress-queue messages (`pq.put`) and prints are abstracted into a
  structured event log: `started id` for the "running {task_id}"
  message at entry of `run_task`, `dispatched id payload` for the await
  of the worker on the composed prompt, `wrote id out` for the write
  into `completed.tasks_executed`.
* Python `repr` of the resolved-inputs dict (interpolated into the
  prompt f-string) is modelled by `pyReprInputs`, which mirrors the
  shape `{'key': TaskOutput(id='…', output='…', errors=None)}` of
  pydantic model reprs for strings that need no escaping.
-/

/-- `TaskOutput` from `schema/orchestrator.py`: result of one executed task. -/
structure TaskOutput where
  id : String
  output : String
  errors : Option String
  deriving Repr, DecidableEq

/-- `PlannerTask` from `schema/planner.py`: one unit of work with declared
dependency ids in `inputs`. -/
structure PlannerTask where
  id : String
  instructions : String
  success_criteria : String
  inputs : List String
  notes : Option String
  deriving Repr, DecidableEq

/-- `TasksPlan` from `schema/planner.py`: the Planner's goal and task list. -/
structure TasksPlan where
  goal : String
  plan : List PlannerTask
  deriving Repr, DecidableEq

/-- `OrchestratorResponse` from `schema/orchestrator.py`: outputs of all
executed tasks keyed by task id (a Python dict, here an ordered
association list). -/
structure OrchestratorResponse where
  tasks_executed : List (String × TaskOutput) := []
  deriving Repr, DecidableEq

/-- Behaviour of the external worker agent on one prompt. -/
inductive WorkerOutcome where
  | ok (out : TaskOutput)
  | maxTurnsWithResult (out : TaskOutput)
  | maxTurnsNoResult
  | fatal (msg : String)
  deriving Repr, DecidableEq

/-- Exceptions of the orchestration code. -/
inductive OrchError where
  | nilPlan
  | keyError (key : String)
  | maxTurns
  | workerFatal (msg : String)
  | fuelExhausted
  deriving Repr, DecidableEq

/-- Observable events of a run (progress messages, worker dispatches and
accumulator writes). -/
inductive OrchEvent where
  | started (id : String)
  | dispatched (id : String) (payload : String)
  | wrote (id : String) (out : TaskOutput)
  deriving Repr, DecidableEq

/-! ### Association lists with Python-dict semantics -/

/-- Dict lookup: first (and, for dicts, only) binding of `k`. -/
def lookupA {α : Type} : List (String × α) → String → Option α
  | [], _ => none
  | (k, v) :: rest, key => if k = key then some v else lookupA rest key

/-- Dict assignment `m[k] = v`: replace in place, or append a new key. -/
def insertAssoc {α : Type} : List (String × α) → String → α → List (String × α)
  | [], key, v => [(key, v)]
  | (k, w) :: rest, key, v =>
      if k = key then (key, v) :: rest else (k, w) :: insertAssoc rest key v

/-- `k in m` for a dict. -/
def hasKey {α : Type} (m : List (String × α)) (k : String) : Bool :=
  (lookupA m k).isSome

/-- The keys of a dict, in insertion order. -/
def keysOf {α : Type} (m : List (String × α)) : List String :=
  m.map Prod.fst

/-! ### Graph-builder phase of `_orchestrate_tasks` (pattern.py lines 94-105,
identical in orchestrate_tasks.py lines 30-41) -/

/-- `task_map = {task.id: task for task in task_plan.plan}`. -/
def buildTaskMap (plan : List PlannerTask) : List (String × PlannerTask) :=
  plan.foldl (fun m t => insertAssoc m t.id t) []

/-- `dependency_count = {task.id: len(task.inputs) for task in task_plan.plan}`. -/
def buildDepCount (plan : List PlannerTask) : List (String × Int) :=
  plan.foldl (fun m t => insertAssoc m t.id (t.inputs.length : Int)) []

/-- `dependents[dep].append(task.id)` with `defaultdict(list)` semantics. -/
def appendDependent (m : List (String × List String)) (dep tid : String) :
    List (String × List String) :=
  insertAssoc m dep (((lookupA m dep).getD []) ++ [tid])

/-- The reverse dependency map:
`for task in plan: for dep in task.inputs: dependents[dep].append(task.id)`. -/
def buildDependents (plan : List PlannerTask) : List (String × List String) :=
  plan.foldl (fun m t => t.inputs.foldl (fun m' d => appendDependent m' d t.id) m) []

/-- `ready = [task_id for task_id, count in dependency_count.items() if count == 0]`. -/
def initReady (depCount : List (String × Int)) : List String :=
  (depCount.filter (fun kv => kv.2 == 0)).map Prod.fst

/-! ### Prompt composition -/

/-- A Python single-quote character (written via its code point so that the
source of this file stays plain). -/
def pyQuote : String := String.singleton (Char.ofNat 39)

/-- Python `repr` of a plain string (no escaping needed for the inputs the
model is evaluated on). -/
def pyStr (s : String) : String := pyQuote ++ s ++ pyQuote

/-- Pydantic repr of a `TaskOutput` value, as interpolated by the f-string. -/
def pyReprTaskOutput (o : TaskOutput) : String :=
  "TaskOutput(id=" ++ pyStr o.id ++ ", output=" ++ pyStr o.output ++ ", errors=" ++
    (match o.errors with
     | none => "None"
     | some e => pyStr e) ++ ")"

/-- Python repr of the `resolved_inputs` dict. -/
def pyReprInputs (m : List (String × TaskOutput)) : String :=
  "\x7b" ++
    String.intercalate ", " (m.map (fun kv => pyStr kv.1 ++ ": " ++ pyReprTaskOutput kv.2)) ++
    "\x7d"

/-- `f"{resolved_inputs if resolved_inputs else 'None'}"`: an empty dict is
falsy and renders as `None`. -/
def renderInputs (m : List (String × TaskOutput)) : String :=
  if m.isEmpty then "None" else pyReprInputs m

/-- `f"{task.notes or 'None'}"`: `None` and the empty string are falsy. -/
def renderNotes (notes : Option String) : String :=
  match notes with
  | none => "None"
  | some s => if s.isEmpty then "None" else s

/-- The prompt built by `run_task` in `pattern.py` (lines 112-118). -/
def mkPromptPattern (taskId : String) (task : PlannerTask)
    (resolved : List (String × TaskOutput)) : String :=
  "Task ID: " ++ taskId ++ "\n\n" ++
  "Task Instructions:\n" ++ task.instructions ++ "\n\n" ++
  "Success Criteria:\n" ++ task.success_criteria ++ "\n\n" ++
  "Inputs:\n" ++ renderInputs resolved ++ "\n\n" ++
  "Notes:\n" ++ renderNotes task.notes

/-- The prompt built by `run_task` in `orchestrate_tasks.py` (lines 48-53):
identical except that the `Task ID` header line is absent. -/
def mkPromptTool (task : PlannerTask) (resolved : List (String × TaskOutput)) : String :=
  "Task Instructions:\n" ++ task.instructions ++ "\n\n" ++
  "Success Criteria:\n" ++ task.success_criteria ++ "\n\n" ++
  "Inputs:\n" ++ renderInputs resolved ++ "\n\n" ++
  "Notes:\n" ++ renderNotes task.notes

/-! ### Task dispatch -/

/-- `PlannerExecutorPattern._assign_task` (pattern.py lines 139-180).
On `MaxTurnsExceeded` with a usable partial result it returns that result;
otherwise it synthesizes a degraded `TaskOutput`.  In the synthesis branch
the source attempts `json.loads(task)` and then `task_dict.id`; the prompt
string is never valid JSON (it starts with `Task ID: `), and even a parsed
JSON object would be a Python `dict`, whose `.id` attribute access raises
`AttributeError`; both exceptions are caught by the bare `except`, so `tid`
is always the sentinel `"task-000"`.  The `finally` block returns the
synthesized `TaskOutput` unconditionally. -/
def assignTaskPattern (w : String → WorkerOutcome) (task : String) :
    Except OrchError TaskOutput :=
  match w task with
  | .ok out => .ok out
  | .maxTurnsWithResult out => .ok out
  | .maxTurnsNoResult =>
      .ok { id := "task-000", output := "",
            errors := some "Worker exceeded the allowed interaction steps and could not complete the task." }
  | .fatal msg => .error (.workerFatal msg)

/-- `assign_task` from `tools/planner_executor/assign_task.py` (lines 9-31):
no `try/except`, so a `MaxTurnsExceeded` from the worker run propagates,
as does any other exception. -/
def assignTaskTool (w : String → WorkerOutcome) (task : String) :
    Except OrchError TaskOutput :=
  match w task with
  | .ok out => .ok out
  | .maxTurnsWithResult _ => .error .maxTurns
  | .maxTurnsNoResult => .error .maxTurns
  | .fatal msg => .error (.workerFatal msg)

/-! ### Scheduler state and the `run_task` body -/

/-- Mutable state captured by the `run_task` closure: the response object
`completed`, the `dependency_count` dict, the `ready` list, plus the
observable event log. -/
structure OrchSt where
  completed : List (String × TaskOutput)
  depCount : List (String × Int)
  ready : List String
  log : List OrchEvent
  deriving Repr, DecidableEq

/-- `resolved_inputs = {dep: completed.tasks_executed[dep] for dep in task.inputs}`:
evaluated left to right, raising `KeyError` at the first missing key. -/
def resolveInputs (completed : List (String × TaskOutput)) :
    List String → List (String × TaskOutput) → Except OrchError (List (String × TaskOutput))
  | [], acc => .ok acc
  | d :: rest, acc =>
      match lookupA completed d with
      | none => .error (.keyError d)
      | some v => resolveInputs completed rest (insertAssoc acc d v)

/-- One step of the dependents loop:
`dependency_count[dependent] -= 1; if dependency_count[dependent] == 0: ready.append(dependent)`. -/
def decStep (st : OrchSt) (dep : String) : OrchSt × Option OrchError :=
  match lookupA st.depCount dep with
  | none => (st, some (.keyError dep))
  | some c =>
      if c - 1 = 0 then
        ({ st with depCount := insertAssoc st.depCount dep (c - 1),
                   ready := st.ready ++ [dep] }, none)
      else
        ({ st with depCount := insertAssoc st.depCount dep (c - 1) }, none)

/-- `for dependent in dependents[task_id]: …` -/
def decDependents (st : OrchSt) : List String → OrchSt × Option OrchError
  | [] => (st, none)
  | d :: rest =>
      match decStep st d with
      | (st', none) => decDependents st' rest
      | (st', some e) => (st', some e)

/-- The body of `run_task(task_id)`, shared verbatim (modulo the prompt line
and the dispatched callee) by pattern.py lines 108-127 and
orchestrate_tasks.py lines 44-62; the differing prompt builder and assign
function are parameters. -/
def runTaskGen (tm : List (String × PlannerTask)) (deps : List (String × List String))
    (mkPrompt : String → PlannerTask → List (String × TaskOutput) → String)
    (assignF : String → Except OrchError TaskOutput)
    (st : OrchSt) (taskId : String) : OrchSt × Option OrchError :=
  let st1 := { st with log := st.log ++ [OrchEvent.started taskId] }
  match lookupA tm taskId with
  | none => (st1, some (.keyError taskId))
  | some task =>
      match resolveInputs st1.completed task.inputs [] with
      | .error e => (st1, some e)
      | .ok resolved =>
          let prompt := mkPrompt taskId task resolved
          let st2 := { st1 with log := st1.log ++ [OrchEvent.dispatched taskId prompt] }
          match assignF prompt with
          | .error e => (st2, some e)
          | .ok result =>
              let st3 := { st2 with
                completed := insertAssoc st2.completed taskId result,
                log := st2.log ++ [OrchEvent.wrote taskId result] }
              decDependents st3 ((lookupA deps taskId).getD [])

/-- Run the tasks of one batch (the cooperative schedule described in the
file header); the first exception aborts the batch. -/
def processBatch (runT : OrchSt → String → OrchSt × Option OrchError) :
    OrchSt → List String → OrchSt × Option OrchError
  | st, [] => (st, none)
  | st, id :: rest =>
      match runT st id with
      | (st', none) => processBatch runT st' rest
      | (st', some e) => (st', some e)

/-- `while ready: batch = ready.copy(); ready.clear(); …` with explicit
round fuel. -/
def orchLoopCore (runT : OrchSt → String → OrchSt × Option OrchError) :
    Nat → OrchSt → OrchSt × Option OrchError
  | 0, st => (st, some .fuelExhausted)
  | Nat.succ fuel, st =>
      match st.ready with
      | [] => (st, none)
      | _ :: _ =>
          let batch := st.ready
          let st' := { st with ready := [] }
          match processBatch runT st' batch with
          | (st'', none) => orchLoopCore runT fuel st''
          | (st'', some e) => (st'', some e)

instance {ε α : Type} [DecidableEq ε] [DecidableEq α] : DecidableEq (Except ε α) := fun a b =>
  match a, b with
  | .ok x, .ok y =>
      if h : x = y then isTrue (by rw [h]) else isFalse (by intro hc; cases hc; exact h rfl)
  | .ok _, .error _ => isFalse (by intro hc; cases hc)
  | .error _, .ok _ => isFalse (by intro hc; cases hc)
  | .error e, .error f =>
      if h : e = f then isTrue (by rw [h]) else isFalse (by intro hc; cases hc; exact h rfl)

/-- Result of one orchestration run: the returned value or propagated
exception, next to the progress events emitted before the run ended. -/
structure RunOut where
  result : Except OrchError OrchestratorResponse
  log : List OrchEvent
  deriving Repr, DecidableEq

/-- `PlannerExecutorPattern._orchestrate_tasks` (pattern.py lines 77-137).
The argument is `Option TasksPlan` to model the `task_plan is None` check. -/
def orchestratePatternRun (w : String → WorkerOutcome) (taskPlanOpt : Option TasksPlan) :
    RunOut :=
  match taskPlanOpt with
  | none => ⟨.error .nilPlan, []⟩
  | some tp =>
      if tp.plan.length < 1 then ⟨.ok ⟨[]⟩, []⟩
      else
        let tm := buildTaskMap tp.plan
        let deps := buildDependents tp.plan
        let dc := buildDepCount tp.plan
        let st0 : OrchSt := ⟨[], dc, initReady dc, []⟩
        match orchLoopCore
            (runTaskGen tm deps mkPromptPattern (assignTaskPattern w))
            (tp.plan.length + 1) st0 with
        | (st, none) => ⟨.ok ⟨st.completed⟩, st.log⟩
        | (st, some e) => ⟨.error e, st.log⟩

/-- `orchestrate_tasks` from `tools/planner_executor/orchestrate_tasks.py`
(lines 16-72): the same scheduler with the tool prompt and the
handler-free `assign_task`. -/
def orchestrateToolRun (w : String → WorkerOutcome) (taskPlanOpt : Option TasksPlan) :
    RunOut :=
  match taskPlanOpt with
  | none => ⟨.error .nilPlan, []⟩
  | some tp =>
      if tp.plan.length < 1 then ⟨.ok ⟨[]⟩, []⟩
      else
        let tm := buildTaskMap tp.plan
        let deps := buildDependents tp.plan
        let dc := buildDepCount tp.plan
        let st0 : OrchSt := ⟨[], dc, initReady dc, []⟩
        match orchLoopCore
            (runTaskGen tm deps (fun _ task resolved => mkPromptTool task resolved)
              (assignTaskTool w))
            (tp.plan.length + 1) st0 with
        | (st, none) => ⟨.ok ⟨st.completed⟩, st.log⟩
        | (st, some e) => ⟨.error e, st.log⟩

/-! ### Spec-level predicates over plans, workers and run logs -/

/-- The task ids of a plan, in plan order. -/
def planIds (plan : List PlannerTask) : List String :=
  plan.map (fun t => t.id)

/-- The plan's task ids are unique (spec section 3 plan invariant). -/
def NodupIds (tp : TasksPlan) : Prop :=
  (planIds tp.plan).Nodup

/-- Every declared dependency references a task of the plan. -/
def ClosedRefs (tp : TasksPlan) : Prop :=
  ∀ t ∈ tp.plan, ∀ d ∈ t.inputs, ∃ u ∈ tp.plan, u.id = d

/-- The dependency graph of the plan is acyclic: dependencies strictly
decrease some rank function. -/
def AcyclicPlan (tp : TasksPlan) : Prop :=
  ∃ rank : String → Nat, ∀ t ∈ tp.plan, ∀ d ∈ t.inputs, rank d < rank t.id

/-- A nonempty set of task ids forming a dependency cycle (every member is a
plan task that depends on some member). -/
def CyclicSubset (tp : TasksPlan) (S : List String) : Prop :=
  S ≠ [] ∧ ∀ id ∈ S, ∃ t ∈ tp.plan, t.id = id ∧ ∃ d ∈ t.inputs, d ∈ S

/-- The worker never raises an exception other than `MaxTurnsExceeded`. -/
def NonFatalWorker (w : String → WorkerOutcome) : Prop :=
  ∀ s msg, w s ≠ .fatal msg

instance (tp : TasksPlan) : Decidable (NodupIds tp) :=
  inferInstanceAs (Decidable (planIds tp.plan).Nodup)

instance (tp : TasksPlan) : Decidable (ClosedRefs tp) :=
  inferInstanceAs (Decidable (∀ t ∈ tp.plan, ∀ d ∈ t.inputs, ∃ u ∈ tp.plan, u.id = d))

instance (tp : TasksPlan) (S : List String) : Decidable (CyclicSubset tp S) :=
  inferInstanceAs
    (Decidable (S ≠ [] ∧ ∀ id ∈ S, ∃ t ∈ tp.plan, t.id = id ∧ ∃ d ∈ t.inputs, d ∈ S))

/-- Ids of tasks whose dispatch was started, in log order. -/
def startedIds (log : List OrchEvent) : List String :=
  log.filterMap fun e =>
    match e with
    | .started id => some id
    | _ => none

/-- Ids written to the accumulator, in log order. -/
def writeIds (log : List OrchEvent) : List String :=
  log.filterMap fun e =>
    match e with
    | .wrote id _ => some id
    | _ => none

/-- How many times an id was written to the accumulator during a run. -/
def writesFor (log : List OrchEvent) (id : String) : Nat :=
  (writeIds log).count id

/-- Accumulator contents reconstructed from the write events of a log. -/
def accumOfLogFrom (m : List (String × TaskOutput)) (log : List OrchEvent) :
    List (String × TaskOutput) :=
  log.foldl
    (fun m' e =>
      match e with
      | .wrote id out => insertAssoc m' id out
      | _ => m') m

/-- Accumulator contents after the write events of a log. -/
def accumOfLog (log : List OrchEvent) : List (String × TaskOutput) :=
  accumOfLogFrom [] log

/-- The sub-mapping of `completed` restricted to `inputs` (the dict
comprehension of `run_task`, when no key is missing). -/
def restrictFrom (acc completed : List (String × TaskOutput)) (inputs : List String) :
    List (String × TaskOutput) :=
  inputs.foldl
    (fun a d =>
      match lookupA completed d with
      | some v => insertAssoc a d v
      | none => a) acc

/-! ### Concrete plans and worker stubs used as test inputs -/

/-- A worker that always completes normally. -/
def okWorker : String → WorkerOutcome := fun _ => .ok ⟨"task-xxx", "done", none⟩

/-- A worker stub that always signals an exhausted interaction budget with
no usable partial result. -/
def budgetWorker : String → WorkerOutcome := fun _ => .maxTurnsNoResult

/-- A worker that always raises a non-budget exception. -/
def fatalWorker : String → WorkerOutcome := fun _ => .fatal "boom"

/-- The degraded `TaskOutput` actually synthesized by `_assign_task`. -/
def degradedOut : TaskOutput :=
  ⟨"task-000", "",
    some "Worker exceeded the allowed interaction steps and could not complete the task."⟩

/-- One-task plan whose task is `task-007`. -/
def plan007 : TasksPlan := ⟨"demo", [⟨"task-007", "do it", "it is done", [], none⟩]⟩

/-- One-task plan. -/
def planOne : TasksPlan := ⟨"demo", [⟨"task-001", "do it", "it is done", [], none⟩]⟩

/-- Acyclic unique-id plan whose only task references a dependency id that
no task of the plan defines. -/
def planGhost : TasksPlan := ⟨"g", [⟨"task-001", "i", "s", ["task-999"], none⟩]⟩

/-- Two-task chain `task-001 ← task-002` (unique ids, closed, acyclic). -/
def planChain : TasksPlan :=
  ⟨"g", [⟨"task-001", "i1", "s1", [], none⟩, ⟨"task-002", "i2", "s2", ["task-001"], none⟩]⟩

/-- Cycle `task-001 ↔ task-002` plus the independent `task-003`. -/
def planCyc : TasksPlan :=
  ⟨"g", [⟨"task-001", "i1", "s1", ["task-002"], none⟩,
         ⟨"task-002", "i2", "s2", ["task-001"], none⟩,
         ⟨"task-003", "i3", "s3", [], none⟩]⟩

/-- Plan with duplicate id `task-002`: the second `task-002` (a self-loop)
shadows the first in `task_map` and `dependency_count`, while the first
still contributes a `dependents` edge from `task-001`. -/
def planDup : TasksPlan :=
  ⟨"g", [⟨"task-001", "i", "s", [], none⟩,
         ⟨"task-002", "i", "s", ["task-001"], none⟩,
         ⟨"task-002", "i", "s", ["task-002"], none⟩]⟩

/-! ### Definitions used by the invariants and the claim statements -/

/-- The outcome signals an exhausted interaction budget (`MaxTurnsExceeded`). -/
def WorkerOutcome.isBudgetSignal : WorkerOutcome → Bool
  | .maxTurnsWithResult _ => true
  | .maxTurnsNoResult => true
  | _ => false

/-- The worker never signals an exhausted interaction budget. -/
def NoBudgetSignal (w : String → WorkerOutcome) : Prop :=
  ∀ s, (w s).isBudgetSignal = false

/-- Number of inputs of `t` (with multiplicity) that have no committed
result in `completed` yet. -/
def unresolvedCount (completed : List (String × TaskOutput)) (t : PlannerTask) : Nat :=
  (t.inputs.filter (fun d => !(hasKey completed d))).length

/-- Every committed result was written only after all the inputs of its task
had already been committed (write-order closure of the accumulator). -/
def OrderedClosed (plan : List PlannerTask) (completed : List (String × TaskOutput)) : Prop :=
  ∀ m1 id out m2, completed = m1 ++ (id, out) :: m2 →
    ∀ t ∈ plan, t.id = id → ∀ d ∈ t.inputs, hasKey m1 d = true

/-- Soundness of the dispatch events of a log: every dispatched payload was
composed by `mkPromptPattern` from the task of `task_map` and the
accumulator entries of the task's declared inputs as reconstructed from the
writes preceding the dispatch, and all those inputs had been written
before. -/
def DispatchSoundP (plan : List PlannerTask) (log : List OrchEvent) : Prop :=
  ∀ pre id p post, log = pre ++ OrchEvent.dispatched id p :: post →
    ∃ t, lookupA (buildTaskMap plan) id = some t ∧
      (∀ d ∈ t.inputs, ∃ out, OrchEvent.wrote d out ∈ pre) ∧
      p = mkPromptPattern id t (restrictFrom [] (accumOfLog pre) t.inputs)

/-- No dispatched payload of the log makes the worker fail fatally. -/
def NoFatalDispatch (w : String → WorkerOutcome) (log : List OrchEvent) : Prop :=
  ∀ id p, OrchEvent.dispatched id p ∈ log → ∀ msg, w p ≠ .fatal msg

/-- Task ids belonging to the blocked region of a cyclic subset `S`: the
members of `S` and every task transitively depending on a member. -/
inductive Blocked (tp : TasksPlan) (S : List String) : String → Prop
  | base (id : String) (h : id ∈ S) : Blocked tp S id
  | step (t : PlannerTask) (ht : t ∈ tp.plan) (d : String) (hd : d ∈ t.inputs)
      (hB : Blocked tp S d) : Blocked tp S t.id

/-- Scheduler-loop invariant of `_orchestrate_tasks` for a plan with unique
task ids, stated at the boundaries between `run_task` executions.
`pending` is the unprocessed rest of the current batch. -/
structure LoopInv (plan : List PlannerTask) (st : OrchSt) (pending : List String) : Prop where
  compSub : ∀ k ∈ keysOf st.completed, k ∈ planIds plan
  compNodup : (keysOf st.completed).Nodup
  compOrdered : OrderedClosed plan st.completed
  prNodup : (pending ++ st.ready).Nodup
  prSub : ∀ id ∈ pending ++ st.ready, id ∈ planIds plan
  prDisj : ∀ id ∈ pending ++ st.ready, hasKey st.completed id = false
  counts : ∀ t ∈ plan, lookupA st.depCount t.id = some (unresolvedCount st.completed t : Int)
  prZero : ∀ id ∈ pending ++ st.ready, ∀ t ∈ plan, t.id = id →
    unresolvedCount st.completed t = 0
  sched : ∀ t ∈ plan, hasKey st.completed t.id = false →
    unresolvedCount st.completed t = 0 → t.id ∈ pending ++ st.ready
  logStarted : startedIds st.log = keysOf st.completed
  logWrites : writeIds st.log = keysOf st.completed
  logAccum : accumOfLog st.log = st.completed
  logSound : DispatchSoundP plan st.log
  logDispatchKeys : ∀ id p, OrchEvent.dispatched id p ∈ st.log → id ∈ keysOf st.completed

/-- Invariant holding inside the dependents-decrement loop after the result
of task `x` was committed; `remaining` is the unprocessed rest of
`dependents[x]`. -/
structure MidInv (plan : List PlannerTask) (x : String) (st : OrchSt)
    (pending remaining : List String) : Prop where
  compSub : ∀ k ∈ keysOf st.completed, k ∈ planIds plan
  compNodup : (keysOf st.completed).Nodup
  compOrdered : OrderedClosed plan st.completed
  prNodup : (pending ++ st.ready).Nodup
  prSub : ∀ id ∈ pending ++ st.ready, id ∈ planIds plan
  prDisj : ∀ id ∈ pending ++ st.ready, hasKey st.completed id = false
  counts : ∀ t ∈ plan, lookupA st.depCount t.id =
    some ((unresolvedCount st.completed t + remaining.count t.id : Nat) : Int)
  prZero : ∀ id ∈ pending ++ st.ready, ∀ t ∈ plan, t.id = id →
    unresolvedCount st.completed t = 0 ∧ remaining.count id = 0
  sched : ∀ t ∈ plan, hasKey st.completed t.id = false →
    unresolvedCount st.completed t = 0 → remaining.count t.id = 0 →
    t.id ∈ pending ++ st.ready
  remSub : ∀ id ∈ remaining, ∃ t ∈ plan, t.id = id ∧ x ∈ t.inputs
  remNotDone : ∀ id ∈ remaining, hasKey st.completed id = false
  logStarted : startedIds st.log = keysOf st.completed
  logWrites : writeIds st.log = keysOf st.completed
  logAccum : accumOfLog st.log = st.completed
  logSound : DispatchSoundP plan st.log
  logDispatchKeys : ∀ id p, OrchEvent.dispatched id p ∈ st.log → id ∈ keysOf st.completed

/-- The scheduling core of a state (everything except the event log). -/
def OrchSt.core (st : OrchSt) :
    List (String × TaskOutput) × List (String × Int) × List String :=
  (st.completed, st.depCount, st.ready)

/-- Specification of `dependents[x]`: for each plan task `t` in order, `t.id`
repeated once per occurrence of `x` in `t.inputs`. -/
def depListSpec (plan : List PlannerTask) (x : String) : List String :=
  (plan.map (fun t => List.replicate (t.inputs.count x) t.id)).flatten

/-! ### Association-list lemmas -/

theorem hasKey_iff_mem {α : Type} (m : List (String × α)) (k : String) :
    hasKey m k = true ↔ k ∈ keysOf m := by
  induction m with
  | nil => simp [hasKey, lookupA, keysOf]
  | cons hd tl ih =>
    obtain ⟨a, v⟩ := hd
    by_cases h : a = k
    · subst h
      simp [hasKey, lookupA, keysOf]
    · simp only [hasKey, lookupA, if_neg h, keysOf, List.map_cons, List.mem_cons]
      constructor
      · intro hk
        exact Or.inr (ih.1 hk)
      · rintro (hk | hk)
        · exact absurd hk.symm h
        · exact ih.2 hk

theorem hasKey_eq_false_iff {α : Type} (m : List (String × α)) (k : String) :
    hasKey m k = false ↔ k ∉ keysOf m := by
  rw [← hasKey_iff_mem]
  cases h : hasKey m k <;> simp [h]

theorem lookupA_insert_self {α : Type} (m : List (String × α)) (k : String) (v : α) :
    lookupA (insertAssoc m k v) k = some v := by
  induction m with
  | nil => simp [insertAssoc, lookupA]
  | cons hd tl ih =>
    obtain ⟨a, w⟩ := hd
    by_cases h : a = k
    · subst h
      simp [insertAssoc, lookupA]
    · simp [insertAssoc, lookupA, h, ih]

theorem lookupA_insert_ne {α : Type} (m : List (String × α)) (k k' : String) (v : α)
    (h : k' ≠ k) : lookupA (insertAssoc m k v) k' = lookupA m k' := by
  have hne : k ≠ k' := fun hc => h hc.symm
  induction m with
  | nil => simp only [insertAssoc, lookupA, if_neg hne]
  | cons hd tl ih =>
    obtain ⟨a, w⟩ := hd
    by_cases ha : a = k
    · subst ha
      simp only [insertAssoc, if_pos rfl, lookupA, if_neg hne]
    · simp only [insertAssoc, if_neg ha, lookupA, ih]

theorem hasKey_insert_iff {α : Type} (m : List (String × α)) (k k' : String) (v : α) :
    hasKey (insertAssoc m k v) k' = true ↔ (k' = k ∨ hasKey m k' = true) := by
  by_cases h : k' = k
  · subst h
    simp [hasKey, lookupA_insert_self]
  · rw [hasKey, lookupA_insert_ne m k k' v h]
    simp [hasKey, h]

theorem hasKey_insert_of {α : Type} (m : List (String × α)) (k k' : String) (v : α)
    (h : hasKey m k' = true) : hasKey (insertAssoc m k v) k' = true :=
  (hasKey_insert_iff m k k' v).2 (Or.inr h)

theorem insertAssoc_eq_append {α : Type} (m : List (String × α)) (k : String) (v : α)
    (h : hasKey m k = false) : insertAssoc m k v = m ++ [(k, v)] := by
  induction m with
  | nil => simp [insertAssoc]
  | cons hd tl ih =>
    obtain ⟨a, w⟩ := hd
    by_cases ha : a = k
    · subst ha
      simp [hasKey, lookupA] at h
    · simp only [hasKey, lookupA, if_neg ha] at h
      simp [insertAssoc, ha, ih h]

theorem keysOf_append {α : Type} (m n : List (String × α)) :
    keysOf (m ++ n) = keysOf m ++ keysOf n := by
  simp [keysOf]

theorem hasKey_append {α : Type} (m n : List (String × α)) (k : String) :
    hasKey (m ++ n) k = (hasKey m k || hasKey n k) := by
  induction m with
  | nil => simp [hasKey, lookupA]
  | cons hd tl ih =>
    obtain ⟨a, v⟩ := hd
    by_cases h : a = k
    · subst h
      simp [hasKey, lookupA]
    · simpa [hasKey, lookupA, h] using ih

theorem lookupA_mem {α : Type} (m : List (String × α)) (k : String) (v : α)
    (h : lookupA m k = some v) : (k, v) ∈ m := by
  induction m with
  | nil => simp [lookupA] at h
  | cons hd tl ih =>
    obtain ⟨a, w⟩ := hd
    by_cases ha : a = k
    · subst ha
      simp [lookupA] at h
      simp [h]
    · simp only [lookupA, if_neg ha] at h
      exact List.mem_cons_of_mem _ (ih h)

/-! ### Log lemmas -/

theorem startedIds_append (l1 l2 : List OrchEvent) :
    startedIds (l1 ++ l2) = startedIds l1 ++ startedIds l2 := by
  simp [startedIds]

theorem writeIds_append (l1 l2 : List OrchEvent) :
    writeIds (l1 ++ l2) = writeIds l1 ++ writeIds l2 := by
  simp [writeIds]

theorem startedIds_started (id : String) : startedIds [OrchEvent.started id] = [id] := rfl

theorem startedIds_dispatched (id p : String) :
    startedIds [OrchEvent.dispatched id p] = [] := rfl

theorem startedIds_wrote (id : String) (out : TaskOutput) :
    startedIds [OrchEvent.wrote id out] = [] := rfl

theorem writeIds_started (id : String) : writeIds [OrchEvent.started id] = [] := rfl

theorem writeIds_dispatched (id p : String) : writeIds [OrchEvent.dispatched id p] = [] := rfl

theorem writeIds_wrote (id : String) (out : TaskOutput) :
    writeIds [OrchEvent.wrote id out] = [id] := rfl

theorem accumOfLogFrom_append (m : List (String × TaskOutput)) (l1 l2 : List OrchEvent) :
    accumOfLogFrom m (l1 ++ l2) = accumOfLogFrom (accumOfLogFrom m l1) l2 := by
  simp [accumOfLogFrom]

theorem accumOfLogFrom_started (m : List (String × TaskOutput)) (id : String) :
    accumOfLogFrom m [OrchEvent.started id] = m := rfl

theorem accumOfLogFrom_dispatched (m : List (String × TaskOutput)) (id p : String) :
    accumOfLogFrom m [OrchEvent.dispatched id p] = m := rfl

theorem accumOfLogFrom_wrote (m : List (String × TaskOutput)) (id : String) (out : TaskOutput) :
    accumOfLogFrom m [OrchEvent.wrote id out] = insertAssoc m id out := rfl

theorem hasKey_accumOfLogFrom (m : List (String × TaskOutput)) (log : List OrchEvent)
    (d : String) (h : hasKey (accumOfLogFrom m log) d = true) :
    hasKey m d = true ∨ ∃ out, OrchEvent.wrote d out ∈ log := by
  induction log generalizing m with
  | nil => exact Or.inl h
  | cons e rest ih =>
    have hstep : accumOfLogFrom m (e :: rest) = accumOfLogFrom (accumOfLogFrom m [e]) rest := by
      simpa using accumOfLogFrom_append m [e] rest
    rw [hstep] at h
    rcases ih _ h with h' | ⟨out, hout⟩
    · cases e with
      | started id => exact Or.inl h'
      | dispatched id p => exact Or.inl h'
      | wrote id out =>
        rw [accumOfLogFrom_wrote] at h'
        rcases (hasKey_insert_iff m id d out).1 h' with hd | hd
        · subst hd
          exact Or.inr ⟨out, List.mem_cons_self _ _⟩
        · exact Or.inl hd
    · exact Or.inr ⟨out, List.mem_cons_of_mem _ hout⟩

/-! ### Unresolved-count and input-resolution lemmas -/

theorem unresolvedCount_eq_zero_iff (completed : List (String × TaskOutput)) (t : PlannerTask) :
    unresolvedCount completed t = 0 ↔ ∀ d ∈ t.inputs, hasKey completed d = true := by
  unfold unresolvedCount
  rw [List.length_eq_zero, List.filter_eq_nil_iff]
  constructor
  · intro h d hd
    have := h d hd
    simpa using this
  · intro h d hd
    simpa using h d hd

theorem filterNot_length_insert (completed : List (String × TaskOutput)) (x : String)
    (out : TaskOutput) (hx : hasKey completed x = false) (l : List String) :
    (l.filter (fun d => !(hasKey completed d))).length
      = (l.filter (fun d => !(hasKey (insertAssoc completed x out) d))).length + l.count x := by
  induction l with
  | nil => simp
  | cons d rest ih =>
    by_cases hdx : d = x
    · subst hdx
      have h1 : hasKey (insertAssoc completed d out) d = true := by
        simp [hasKey, lookupA_insert_self]
      have e1 : List.filter (fun d' => !(hasKey completed d')) (d :: rest)
          = d :: List.filter (fun d' => !(hasKey completed d')) rest := by
        rw [List.filter_cons]
        simp [hx]
      have e2 : List.filter (fun d' => !(hasKey (insertAssoc completed d out) d')) (d :: rest)
          = List.filter (fun d' => !(hasKey (insertAssoc completed d out) d')) rest := by
        rw [List.filter_cons]
        simp [h1]
      have e3 : (d :: rest).count d = rest.count d + 1 := by
        simp [List.count_cons]
      rw [e1, e2, e3, List.length_cons, ih]
      omega
    · have h2 : hasKey (insertAssoc completed x out) d = hasKey completed d := by
        unfold hasKey
        rw [lookupA_insert_ne completed x d out hdx]
      have e3 : (d :: rest).count x = rest.count x := by
        simp [List.count_cons, hdx]
      rw [e3]
      cases hk : hasKey completed d with
      | true =>
        have e1 : List.filter (fun d' => !(hasKey completed d')) (d :: rest)
            = List.filter (fun d' => !(hasKey completed d')) rest := by
          rw [List.filter_cons]
          simp [hk]
        have e2 : List.filter (fun d' => !(hasKey (insertAssoc completed x out) d')) (d :: rest)
            = List.filter (fun d' => !(hasKey (insertAssoc completed x out) d')) rest := by
          rw [List.filter_cons]
          simp [h2, hk]
        rw [e1, e2, ih]
      | false =>
        have e1 : List.filter (fun d' => !(hasKey completed d')) (d :: rest)
            = d :: List.filter (fun d' => !(hasKey completed d')) rest := by
          rw [List.filter_cons]
          simp [hk]
        have e2 : List.filter (fun d' => !(hasKey (insertAssoc completed x out) d')) (d :: rest)
            = d :: List.filter (fun d' => !(hasKey (insertAssoc completed x out) d')) rest := by
          rw [List.filter_cons]
          simp [h2, hk]
        rw [e1, e2, List.length_cons, List.length_cons, ih]
        omega

theorem unresolvedCount_insert (completed : List (String × TaskOutput)) (x : String)
    (out : TaskOutput) (hx : hasKey completed x = false) (t : PlannerTask) :
    unresolvedCount completed t
      = unresolvedCount (insertAssoc completed x out) t + t.inputs.count x := by
  exact filterNot_length_insert completed x out hx t.inputs

theorem unresolvedCount_zero_insert (completed : List (String × TaskOutput)) (x : String)
    (out : TaskOutput) (t : PlannerTask) (h : unresolvedCount completed t = 0) :
    unresolvedCount (insertAssoc completed x out) t = 0 := by
  rw [unresolvedCount_eq_zero_iff] at h ⊢
  intro d hd
  exact hasKey_insert_of completed x d out (h d hd)

theorem resolveInputs_ok (completed : List (String × TaskOutput)) :
    ∀ (inputs : List String) (acc r : List (String × TaskOutput)),
    resolveInputs completed inputs acc = .ok r →
    (∀ d ∈ inputs, hasKey completed d = true) ∧ r = restrictFrom acc completed inputs := by
  intro inputs
  induction inputs with
  | nil =>
    intro acc r h
    simp [resolveInputs] at h
    simp [restrictFrom, h]
  | cons d rest ih =>
    intro acc r h
    unfold resolveInputs at h
    cases hl : lookupA completed d with
    | none =>
      rw [hl] at h
      exact absurd h (by simp)
    | some v =>
      rw [hl] at h
      obtain ⟨hall, hr⟩ := ih _ _ h
      refine ⟨?_, ?_⟩
      · intro d' hd'
        rcases List.mem_cons.1 hd' with rfl | hd'
        · simp [hasKey, hl]
        · exact hall d' hd'
      · simpa [restrictFrom, hl] using hr

theorem resolveInputs_ok_of_all (completed : List (String × TaskOutput)) :
    ∀ (inputs : List String) (acc : List (String × TaskOutput)),
    (∀ d ∈ inputs, hasKey completed d = true) →
    resolveInputs completed inputs acc = .ok (restrictFrom acc completed inputs) := by
  intro inputs
  induction inputs with
  | nil =>
    intro acc _
    simp [resolveInputs, restrictFrom]
  | cons d rest ih =>
    intro acc hall
    have hd : hasKey completed d = true := hall d (List.mem_cons_self _ _)
    unfold hasKey at hd
    cases hl : lookupA completed d with
    | none => rw [hl] at hd; simp at hd
    | some v =>
      have hstep : resolveInputs completed (d :: rest) acc
          = resolveInputs completed rest (insertAssoc acc d v) := by
        simp [resolveInputs, hl]
      rw [hstep, ih (insertAssoc acc d v) (fun d' hd' => hall d' (List.mem_cons_of_mem _ hd'))]
      simp [restrictFrom, hl]

/-! ### Log-decomposition lemmas -/

theorem append_cons_decomp {α : Type} {l Δ pre post : List α} {e : α}
    (h : l ++ Δ = pre ++ e :: post) :
    (∃ post', l = pre ++ e :: post' ∧ post = post' ++ Δ) ∨
    (∃ pre', pre = l ++ pre' ∧ Δ = pre' ++ e :: post) := by
  induction l generalizing pre with
  | nil =>
    right
    exact ⟨pre, by simp, by simpa using h⟩
  | cons a l' ih =>
    cases pre with
    | nil =>
      left
      have h' : a = e ∧ l' ++ Δ = post := by
        simpa using h
      exact ⟨l', by simp [h'.1], h'.2.symm⟩
    | cons b pre' =>
      simp only [List.cons_append, List.cons.injEq] at h
      obtain ⟨hab, h'⟩ := h
      rcases ih h' with ⟨post', hl, hp⟩ | ⟨pre'', hpre, hΔ⟩
      · left
        exact ⟨post', by rw [List.cons_append, hab, hl], hp⟩
      · right
        exact ⟨pre'', by rw [List.cons_append, hab, hpre], hΔ⟩

theorem dispatchSoundP_append_single (plan : List PlannerTask) (l : List OrchEvent)
    (e : OrchEvent) (hs : DispatchSoundP plan l)
    (he : ∀ id p, e = OrchEvent.dispatched id p →
      ∃ t, lookupA (buildTaskMap plan) id = some t ∧
        (∀ d ∈ t.inputs, ∃ out, OrchEvent.wrote d out ∈ l) ∧
        p = mkPromptPattern id t (restrictFrom [] (accumOfLog l) t.inputs)) :
    DispatchSoundP plan (l ++ [e]) := by
  intro pre id p post hdec
  rcases append_cons_decomp hdec with ⟨post', hl, _⟩ | ⟨pre', hpre, hΔ⟩
  · exact hs pre id p post' hl
  · cases pre' with
    | nil =>
      simp only [List.nil_append, List.cons.injEq] at hΔ
      obtain ⟨he', _⟩ : e = OrchEvent.dispatched id p ∧ post = [] := by
        constructor
        · exact hΔ.1
        · exact hΔ.2.symm
      have hpre' : pre = l := by simpa using hpre
      subst hpre'
      exact he id p he'
    | cons x xs =>
      exfalso
      simp only [List.cons_append, List.cons.injEq] at hΔ
      have := hΔ.2
      exact absurd this.symm (by simp)

theorem dispatchSoundP_append_nondispatch (plan : List PlannerTask) (l : List OrchEvent)
    (e : OrchEvent) (hs : DispatchSoundP plan l)
    (he : ∀ id p, e ≠ OrchEvent.dispatched id p) :
    DispatchSoundP plan (l ++ [e]) :=
  dispatchSoundP_append_single plan l e hs (fun id p hd => absurd hd (he id p))

/-! ### Graph-builder lemmas -/

theorem foldl_insert_fresh {β α : Type} (key : β → String) (val : β → α) :
    ∀ (l : List β) (m0 : List (String × α)),
    (l.map key).Nodup → (∀ k ∈ l.map key, hasKey m0 k = false) →
    l.foldl (fun m b => insertAssoc m (key b) (val b)) m0
      = m0 ++ l.map (fun b => (key b, val b)) := by
  intro l
  induction l with
  | nil =>
    intro m0 _ _
    simp
  | cons b rest ih =>
    intro m0 hnd hfresh
    have hb : hasKey m0 (key b) = false := hfresh _ (by simp)
    have hnd' : (rest.map key).Nodup := (List.nodup_cons.1 (by simpa using hnd)).2
    have hhead : key b ∉ rest.map key := (List.nodup_cons.1 (by simpa using hnd)).1
    rw [List.foldl_cons, insertAssoc_eq_append _ _ _ hb, ih (m0 ++ [(key b, val b)]) hnd' ?_]
    · simp
    · intro k hk
      rw [hasKey_append]
      have h1 : hasKey m0 k = false := hfresh _ (List.mem_cons_of_mem _ hk)
      have h2 : hasKey [(key b, val b)] k = false := by
        have : key b ≠ k := fun hc => hhead (hc ▸ hk)
        simp [hasKey, lookupA, this]
      rw [h1, h2]
      rfl

theorem buildTaskMap_eq (plan : List PlannerTask) (hids : (planIds plan).Nodup) :
    buildTaskMap plan = plan.map (fun t => (t.id, t)) := by
  have := foldl_insert_fresh (fun t : PlannerTask => t.id) (fun t => t) plan []
    (by simpa [planIds] using hids) (by intro k _; rfl)
  simpa [buildTaskMap] using this

theorem buildDepCount_eq (plan : List PlannerTask) (hids : (planIds plan).Nodup) :
    buildDepCount plan = plan.map (fun t => (t.id, (t.inputs.length : Int))) := by
  have := foldl_insert_fresh (fun t : PlannerTask => t.id)
    (fun t => (t.inputs.length : Int)) plan []
    (by simpa [planIds] using hids) (by intro k _; rfl)
  simpa [buildDepCount] using this

theorem lookupA_map_pair {β α : Type} (key : β → String) (val : β → α) :
    ∀ (l : List β), (l.map key).Nodup → ∀ b ∈ l,
    lookupA (l.map fun b' => (key b', val b')) (key b) = some (val b) := by
  intro l
  induction l with
  | nil =>
    intro _ b hb
    simp at hb
  | cons c rest ih =>
    intro hnd b hb
    have hnd' : (rest.map key).Nodup := (List.nodup_cons.1 (by simpa using hnd)).2
    have hhead : key c ∉ rest.map key := (List.nodup_cons.1 (by simpa using hnd)).1
    rcases List.mem_cons.1 hb with rfl | hb'
    · simp [lookupA]
    · have hne : key c ≠ key b := by
        intro hc
        exact hhead (hc ▸ List.mem_map_of_mem key hb')
      simp only [List.map_cons, lookupA, if_neg hne]
      exact ih hnd' b hb'

theorem buildTaskMap_lookup (plan : List PlannerTask) (hids : (planIds plan).Nodup)
    (t : PlannerTask) (ht : t ∈ plan) : lookupA (buildTaskMap plan) t.id = some t := by
  rw [buildTaskMap_eq plan hids]
  exact lookupA_map_pair (fun t : PlannerTask => t.id) (fun t => t) plan
    (by simpa [planIds] using hids) t ht

theorem buildDepCount_lookup (plan : List PlannerTask) (hids : (planIds plan).Nodup)
    (t : PlannerTask) (ht : t ∈ plan) :
    lookupA (buildDepCount plan) t.id = some (t.inputs.length : Int) := by
  rw [buildDepCount_eq plan hids]
  exact lookupA_map_pair (fun t : PlannerTask => t.id)
    (fun t => (t.inputs.length : Int)) plan (by simpa [planIds] using hids) t ht

theorem keysOf_buildDepCount (plan : List PlannerTask) (hids : (planIds plan).Nodup) :
    keysOf (buildDepCount plan) = planIds plan := by
  rw [buildDepCount_eq plan hids]
  simp [keysOf, planIds]

theorem lookupA_mem_pair {β α : Type} (key : β → String) (val : β → α) (l : List β)
    (k : String) (v : α) (h : lookupA (l.map fun b => (key b, val b)) k = some v) :
    ∃ b ∈ l, key b = k ∧ val b = v := by
  have hmem := lookupA_mem _ _ _ h
  simp only [List.mem_map, Prod.mk.injEq] at hmem
  obtain ⟨b, hb, hk, hv⟩ := hmem
  exact ⟨b, hb, hk, hv⟩

/-! ### Dependents-map lemmas -/

theorem appendDependent_fold (tid x : String) :
    ∀ (ins : List String) (m : List (String × List String)),
    (lookupA (ins.foldl (fun m' d => appendDependent m' d tid) m) x).getD []
      = (lookupA m x).getD [] ++ List.replicate (ins.count x) tid := by
  intro ins
  induction ins with
  | nil =>
    intro m
    simp
  | cons d rest ih =>
    intro m
    rw [List.foldl_cons, ih (appendDependent m d tid)]
    by_cases hdx : d = x
    · subst hdx
      have h1 : lookupA (appendDependent m d tid) d
          = some ((lookupA m d).getD [] ++ [tid]) := by
        simp [appendDependent, lookupA_insert_self]
      rw [h1]
      have h2 : (d :: rest).count d = rest.count d + 1 := by
        simp [List.count_cons]
      rw [h2, List.replicate_succ]
      simp
    · have h1 : lookupA (appendDependent m d tid) x = lookupA m x := by
        unfold appendDependent
        exact lookupA_insert_ne m d x _ (fun hc => hdx hc.symm)
      have h2 : (d :: rest).count x = rest.count x := by
        simp [List.count_cons, hdx]
      rw [h1, h2]

theorem buildDependents_from (x : String) :
    ∀ (plan : List PlannerTask) (m : List (String × List String)),
    (lookupA (plan.foldl
        (fun m' t => t.inputs.foldl (fun m'' d => appendDependent m'' d t.id) m') m) x).getD []
      = (lookupA m x).getD [] ++ depListSpec plan x := by
  intro plan
  induction plan with
  | nil =>
    intro m
    simp [depListSpec]
  | cons t rest ih =>
    intro m
    rw [List.foldl_cons, ih, appendDependent_fold t.id x t.inputs m]
    have : depListSpec (t :: rest) x
        = List.replicate (t.inputs.count x) t.id ++ depListSpec rest x := by
      simp [depListSpec]
    rw [this, List.append_assoc]

theorem buildDependents_at (plan : List PlannerTask) (x : String) :
    (lookupA (buildDependents plan) x).getD [] = depListSpec plan x := by
  have := buildDependents_from x plan []
  simpa [buildDependents] using this

theorem depListSpec_mem (plan : List PlannerTask) (x id : String)
    (h : id ∈ depListSpec plan x) : ∃ t ∈ plan, t.id = id ∧ x ∈ t.inputs := by
  simp only [depListSpec, List.mem_flatten, List.mem_map] at h
  obtain ⟨l, ⟨t, ht, rfl⟩, hid⟩ := h
  rw [List.mem_replicate] at hid
  refine ⟨t, ht, hid.2.symm, ?_⟩
  have : t.inputs.count x ≠ 0 := hid.1
  have hpos : 0 < t.inputs.count x := Nat.pos_of_ne_zero this
  exact List.count_pos_iff.1 hpos

theorem depListSpec_count (plan : List PlannerTask) (hids : (planIds plan).Nodup)
    (t : PlannerTask) (ht : t ∈ plan) (x : String) :
    (depListSpec plan x).count t.id = t.inputs.count x := by
  induction plan with
  | nil => simp at ht
  | cons u rest ih =>
    have hnd' : (planIds rest).Nodup := (List.nodup_cons.1 (by simpa [planIds] using hids)).2
    have hhead : u.id ∉ planIds rest := (List.nodup_cons.1 (by simpa [planIds] using hids)).1
    have hsplit : depListSpec (u :: rest) x
        = List.replicate (u.inputs.count x) u.id ++ depListSpec rest x := by
      simp [depListSpec]
    rw [hsplit, List.count_append]
    rcases List.mem_cons.1 ht with rfl | ht'
    · have h1 : (List.replicate (t.inputs.count x) t.id).count t.id = t.inputs.count x := by
        simp [List.count_replicate]
      have h2 : (depListSpec rest x).count t.id = 0 := by
        rw [List.count_eq_zero]
        intro hc
        obtain ⟨t', ht', hid, _⟩ := depListSpec_mem rest x t.id hc
        exact hhead (hid ▸ List.mem_map_of_mem (fun t => t.id) ht')
      rw [h1, h2]
      omega
    · have hne : u.id ≠ t.id := by
        intro hc
        exact hhead (hc ▸ List.mem_map_of_mem (fun t => t.id) ht')
      have h1 : (List.replicate (u.inputs.count x) u.id).count t.id = 0 := by
        rw [List.count_replicate]
        simp [Ne.symm hne, hne]
      rw [h1, ih hnd' ht']
      omega

/-! ### Plan-membership helpers -/

theorem mem_planIds_iff (plan : List PlannerTask) (id : String) :
    id ∈ planIds plan ↔ ∃ t ∈ plan, t.id = id := by
  simp [planIds, List.mem_map]

theorem eq_of_mem_of_id_eq (plan : List PlannerTask) (hids : (planIds plan).Nodup)
    (t t' : PlannerTask) (ht : t ∈ plan) (ht' : t' ∈ plan) (h : t.id = t'.id) : t = t' := by
  induction plan with
  | nil => simp at ht
  | cons u rest ih =>
    have hnd' : (planIds rest).Nodup := (List.nodup_cons.1 (by simpa [planIds] using hids)).2
    have hhead : u.id ∉ planIds rest := (List.nodup_cons.1 (by simpa [planIds] using hids)).1
    rcases List.mem_cons.1 ht with rfl | ht2 <;> rcases List.mem_cons.1 ht' with heq | ht2'
    · rw [heq]
    · exact absurd (h ▸ List.mem_map_of_mem (fun t => t.id) ht2') hhead
    · subst heq
      exact absurd (h ▸ List.mem_map_of_mem (fun t => t.id) ht2) hhead
    · exact ih hnd' ht2 ht2'

theorem count_tail_zero (d id : String) (rest : List String)
    (h : (d :: rest).count id = 0) : rest.count id = 0 := by
  simp [List.count_cons] at h
  omega

/-! ### The dependents-decrement loop preserves the invariant -/

theorem nodup_append_singleton {α : Type} (l : List α) (a : α) (h : l.Nodup)
    (ha : a ∉ l) : (l ++ [a]).Nodup := by
  rw [List.nodup_append]
  refine ⟨h, List.nodup_singleton a, ?_⟩
  intro b hb hb1
  rw [List.mem_singleton] at hb1
  subst hb1
  exact ha hb

theorem decDependents_nil (st : OrchSt) : decDependents st [] = (st, none) := rfl

theorem decDependents_cons (st : OrchSt) (d : String) (rest : List String) :
    decDependents st (d :: rest)
      = match decStep st d with
        | (st', none) => decDependents st' rest
        | (st', some e) => (st', some e) := rfl

theorem decDependents_inv (plan : List PlannerTask) (hids : (planIds plan).Nodup)
    (x : String) (pending : List String) :
    ∀ (remaining : List String) (st : OrchSt),
    MidInv plan x st pending remaining →
    ∃ st', decDependents st remaining = (st', none) ∧
      MidInv plan x st' pending [] ∧
      st'.completed = st.completed ∧ st'.log = st.log := by
  intro remaining
  induction remaining with
  | nil =>
    intro st hinv
    exact ⟨st, rfl, hinv, rfl, rfl⟩
  | cons d rest ih =>
    intro st hinv
    obtain ⟨t0, ht0, ht0id, hxin⟩ := hinv.remSub d (List.mem_cons_self _ _)
    have hcnt := hinv.counts t0 ht0
    have hdcount : (d :: rest).count t0.id = rest.count t0.id + 1 := by
      rw [ht0id]
      simp [List.count_cons]
    set uc := unresolvedCount st.completed t0 with huc
    have hlook : lookupA st.depCount d = some ((uc + (rest.count d + 1) : Nat) : Int) := by
      rw [← ht0id, hcnt, hdcount]
    have hc1 : ((uc + (rest.count d + 1) : Nat) : Int) - 1 = ((uc + rest.count d : Nat) : Int) := by
      push_cast
      ring
    have hstep : decStep st d =
        (if ((uc + (rest.count d + 1) : Nat) : Int) - 1 = 0 then
          ({ st with depCount := insertAssoc st.depCount d
                       (((uc + (rest.count d + 1) : Nat) : Int) - 1),
                     ready := st.ready ++ [d] }, none)
        else
          ({ st with depCount := insertAssoc st.depCount d
                       (((uc + (rest.count d + 1) : Nat) : Int) - 1) }, none)) := by
      unfold decStep
      rw [hlook]
    have hcounts' : ∀ t ∈ plan,
        lookupA (insertAssoc st.depCount d (((uc + (rest.count d + 1) : Nat) : Int) - 1)) t.id
          = some ((unresolvedCount st.completed t + rest.count t.id : Nat) : Int) := by
      intro t ht
      by_cases hid : t.id = d
      · have heq : t = t0 := eq_of_mem_of_id_eq plan hids t t0 ht ht0 (by rw [hid, ht0id])
        subst heq
        rw [hid, lookupA_insert_self, hc1]
      · rw [lookupA_insert_ne st.depCount d t.id _ hid, hinv.counts t ht]
        have hne : d ≠ t.id := fun h => hid h.symm
        have : (d :: rest).count t.id = rest.count t.id := by
          simp [List.count_cons, hne]
        rw [this]
    have hdinS : d ∈ planIds plan := (mem_planIds_iff plan d).2 ⟨t0, ht0, ht0id⟩
    have hdnotdone : hasKey st.completed d = false :=
      hinv.remNotDone d (List.mem_cons_self _ _)
    have hdnotpr : d ∉ pending ++ st.ready := by
      intro hmem
      have h0 := (hinv.prZero d hmem t0 ht0 ht0id).2
      simp [List.count_cons] at h0
    by_cases hzero : ((uc + (rest.count d + 1) : Nat) : Int) - 1 = 0
    · -- the count reached zero: d is appended to ready
      have huc0 : uc = 0 ∧ rest.count d = 0 := by
        rw [hc1] at hzero
        have : uc + rest.count d = 0 := by exact_mod_cast hzero
        omega
      set stA : OrchSt :=
        { st with depCount := insertAssoc st.depCount d
                    (((uc + (rest.count d + 1) : Nat) : Int) - 1),
                  ready := st.ready ++ [d] } with hstA
      have hD : decDependents st (d :: rest) = decDependents stA rest := by
        rw [decDependents_cons, hstep, if_pos hzero]
      have hmemA : ∀ id, id ∈ pending ++ stA.ready ↔ (id ∈ pending ++ st.ready ∨ id = d) := by
        intro id
        simp [hstA, List.mem_append, or_assoc]
      have hinvA : MidInv plan x stA pending rest := by
        refine ⟨hinv.compSub, hinv.compNodup, hinv.compOrdered, ?_, ?_, ?_, hcounts', ?_, ?_,
          fun id hid => hinv.remSub id (List.mem_cons_of_mem _ hid),
          fun id hid => hinv.remNotDone id (List.mem_cons_of_mem _ hid),
          hinv.logStarted, hinv.logWrites, hinv.logAccum, hinv.logSound,
          hinv.logDispatchKeys⟩
        · -- nodup
          have : pending ++ stA.ready = (pending ++ st.ready) ++ [d] := by
            simp [hstA]
          rw [this]
          exact nodup_append_singleton _ _ hinv.prNodup hdnotpr
        · -- subset of plan ids
          intro id hid
          rcases (hmemA id).1 hid with h | rfl
          · exact hinv.prSub id h
          · exact hdinS
        · -- disjoint from completed
          intro id hid
          rcases (hmemA id).1 hid with h | rfl
          · exact hinv.prDisj id h
          · exact hdnotdone
        · -- zero unresolved and no remaining decrement for scheduled ids
          intro id hid t ht htid
          rcases (hmemA id).1 hid with h | rfl
          · obtain ⟨h1, h2⟩ := hinv.prZero id h t ht htid
            exact ⟨h1, count_tail_zero d id rest h2⟩
          · have heq : t = t0 := eq_of_mem_of_id_eq plan hids t t0 ht ht0 (by rw [htid, ht0id])
            subst heq
            refine ⟨?_, huc0.2⟩
            rw [← huc]
            exact huc0.1
        · -- every runnable unexecuted task is scheduled
          intro t ht hnotdone hzero' hrest'
          by_cases hid : t.id = d
          · exact (hmemA t.id).2 (Or.inr hid)
          · have hne : d ≠ t.id := fun h => hid h.symm
            have hcount0 : (d :: rest).count t.id = 0 := by
              simp [List.count_cons, hne]
              exact hrest'
            have := hinv.sched t ht hnotdone hzero' hcount0
            exact (hmemA t.id).2 (Or.inl this)
      obtain ⟨st', hdec, hfin, hcomp, hlog⟩ := ih stA hinvA
      refine ⟨st', by rw [hD, hdec], hfin, ?_, ?_⟩
      · rw [hcomp]
      · rw [hlog]
    · -- the count stays positive: no append
      set stB : OrchSt :=
        { st with depCount := insertAssoc st.depCount d
                    (((uc + (rest.count d + 1) : Nat) : Int) - 1) } with hstB
      have hD : decDependents st (d :: rest) = decDependents stB rest := by
        rw [decDependents_cons, hstep, if_neg hzero]
      have hinvB : MidInv plan x stB pending rest := by
        refine ⟨hinv.compSub, hinv.compNodup, hinv.compOrdered, hinv.prNodup, hinv.prSub,
          hinv.prDisj, hcounts', ?_, ?_,
          fun id hid => hinv.remSub id (List.mem_cons_of_mem _ hid),
          fun id hid => hinv.remNotDone id (List.mem_cons_of_mem _ hid),
          hinv.logStarted, hinv.logWrites, hinv.logAccum, hinv.logSound,
          hinv.logDispatchKeys⟩
        · intro id hid t ht htid
          obtain ⟨h1, h2⟩ := hinv.prZero id hid t ht htid
          exact ⟨h1, count_tail_zero d id rest h2⟩
        · intro t ht hnotdone hzero' hrest'
          by_cases hid : t.id = d
          · exfalso
            have heq : t = t0 := eq_of_mem_of_id_eq plan hids t t0 ht ht0 (by rw [hid, ht0id])
            subst heq
            have h1 : uc = 0 := hzero'
            have h2 : rest.count d = 0 := by rw [← hid]; exact hrest'
            rw [hc1] at hzero
            apply hzero
            rw [h1, h2]
            rfl
          · have hne : d ≠ t.id := fun h => hid h.symm
            have hcount0 : (d :: rest).count t.id = 0 := by
              simp [List.count_cons, hne]
              exact hrest'
            exact hinv.sched t ht hnotdone hzero' hcount0
      obtain ⟨st', hdec, hfin, hcomp, hlog⟩ := ih stB hinvB
      refine ⟨st', by rw [hD, hdec], hfin, ?_, ?_⟩
      · rw [hcomp]
      · rw [hlog]

/-! ### Closure and key-splitting helpers -/

theorem hasKey_insert_false {α : Type} (m : List (String × α)) (k k' : String) (v : α)
    (h1 : k' ≠ k) (h2 : hasKey m k' = false) : hasKey (insertAssoc m k v) k' = false := by
  cases h : hasKey (insertAssoc m k v) k' with
  | false => rfl
  | true =>
    rcases (hasKey_insert_iff m k k' v).1 h with hc | hc
    · exact absurd hc h1
    · rw [hc] at h2
      exact absurd h2 (by simp)

theorem mem_keys_split {α : Type} (m : List (String × α)) (k : String)
    (h : k ∈ keysOf m) : ∃ m1 v m2, m = m1 ++ (k, v) :: m2 := by
  induction m with
  | nil => simp [keysOf] at h
  | cons hd tl ih =>
    obtain ⟨a, v⟩ := hd
    by_cases ha : a = k
    · subst ha
      exact ⟨[], v, tl, rfl⟩
    · have hmem : k ∈ a :: keysOf tl := h
      have h' : k ∈ keysOf tl := by
        rcases List.mem_cons.1 hmem with hc | hc
        · exact absurd hc.symm ha
        · exact hc
      obtain ⟨m1, w, m2, hm⟩ := ih h'
      exact ⟨(a, v) :: m1, w, m2, by rw [hm]; rfl⟩

theorem orderedClosed_closed (plan : List PlannerTask) (completed : List (String × TaskOutput))
    (h : OrderedClosed plan completed) (k : String) (hk : hasKey completed k = true)
    (t : PlannerTask) (ht : t ∈ plan) (htid : t.id = k) (d : String) (hd : d ∈ t.inputs) :
    hasKey completed d = true := by
  obtain ⟨m1, v, m2, hm⟩ := mem_keys_split completed k ((hasKey_iff_mem completed k).1 hk)
  have := h m1 k v m2 hm t ht htid d hd
  rw [hm, hasKey_append, this]
  rfl

theorem orderedClosed_snoc (plan : List PlannerTask) (completed : List (String × TaskOutput))
    (k : String) (out : TaskOutput) (h : OrderedClosed plan completed)
    (hlast : ∀ t ∈ plan, t.id = k → ∀ d ∈ t.inputs, hasKey completed d = true) :
    OrderedClosed plan (completed ++ [(k, out)]) := by
  intro m1 id o m2 hdec t ht htid d hd
  rcases append_cons_decomp hdec with ⟨post', hl, _⟩ | ⟨pre', hpre, hΔ⟩
  · exact h m1 id o post' hl t ht htid d hd
  · cases pre' with
    | nil =>
      simp only [List.nil_append] at hΔ
      injection hΔ with hpair hrest
      injection hpair with hk hout
      have hm1 : m1 = completed := by simpa using hpre
      subst hm1
      refine hlast t ht ?_ d hd
      rw [htid]
      exact hk.symm
    | cons y ys =>
      exfalso
      have := congrArg List.length hΔ
      simp at this

theorem orderedClosed_prefix (plan : List PlannerTask) (ms : List (String × TaskOutput))
    (e : String × TaskOutput) (h : OrderedClosed plan (ms ++ [e])) : OrderedClosed plan ms := by
  intro m1 id o m2 hdec t ht htid d hd
  exact h m1 id o (m2 ++ [e]) (by rw [hdec]; simp) t ht htid d hd

theorem midInv_to_loopInv (plan : List PlannerTask) (x : String) (st : OrchSt)
    (pending : List String) (h : MidInv plan x st pending []) : LoopInv plan st pending := by
  refine ⟨h.compSub, h.compNodup, h.compOrdered, h.prNodup, h.prSub, h.prDisj, ?_, ?_, ?_,
    h.logStarted, h.logWrites, h.logAccum, h.logSound, h.logDispatchKeys⟩
  · intro t ht
    have := h.counts t ht
    simpa using this
  · intro id hid t ht htid
    exact (h.prZero id hid t ht htid).1
  · intro t ht h1 h2
    exact h.sched t ht h1 h2 (by simp)

theorem decDependents_frame (l : List String) :
    ∀ (st st' : OrchSt) (e : Option OrchError), decDependents st l = (st', e) →
    st'.completed = st.completed ∧ st'.log = st.log := by
  induction l with
  | nil =>
    intro st st' e h
    rw [decDependents_nil] at h
    cases h
    exact ⟨rfl, rfl⟩
  | cons d rest ih =>
    intro st st' e h
    cases hl : lookupA st.depCount d with
    | none =>
      have hst : decDependents st (d :: rest) = (st, some (.keyError d)) := by
        rw [decDependents_cons]
        unfold decStep
        rw [hl]
      rw [hst] at h
      cases h
      exact ⟨rfl, rfl⟩
    | some c =>
      by_cases hz : c - 1 = 0
      · have hd : decStep st d
            = ({ st with depCount := insertAssoc st.depCount d (c - 1),
                         ready := st.ready ++ [d] }, none) := by
          simp [decStep, hl, hz]
        have hst : decDependents st (d :: rest)
            = decDependents { st with depCount := insertAssoc st.depCount d (c - 1),
                                      ready := st.ready ++ [d] } rest := by
          rw [decDependents_cons, hd]
        rw [hst] at h
        exact ih { st with depCount := insertAssoc st.depCount d (c - 1),
                           ready := st.ready ++ [d] } st' e h
      · have hd : decStep st d
            = ({ st with depCount := insertAssoc st.depCount d (c - 1) }, none) := by
          simp [decStep, hl, hz]
        have hst : decDependents st (d :: rest)
            = decDependents { st with depCount := insertAssoc st.depCount d (c - 1) } rest := by
          rw [decDependents_cons, hd]
        rw [hst] at h
        exact ih { st with depCount := insertAssoc st.depCount d (c - 1) } st' e h

/-! ### Equation lemmas for the scheduler loop -/

theorem processBatch_nil (runT : OrchSt → String → OrchSt × Option OrchError) (st : OrchSt) :
    processBatch runT st [] = (st, none) := rfl

theorem processBatch_cons (runT : OrchSt → String → OrchSt × Option OrchError) (st : OrchSt)
    (id : String) (rest : List String) :
    processBatch runT st (id :: rest)
      = match runT st id with
        | (st', none) => processBatch runT st' rest
        | (st', some e) => (st', some e) := rfl

theorem orchLoopCore_zero (runT : OrchSt → String → OrchSt × Option OrchError) (st : OrchSt) :
    orchLoopCore runT 0 st = (st, some .fuelExhausted) := rfl

theorem orchLoopCore_succ (runT : OrchSt → String → OrchSt × Option OrchError) (fuel : Nat)
    (st : OrchSt) :
    orchLoopCore runT (fuel + 1) st
      = match st.ready with
        | [] => (st, none)
        | _ :: _ =>
            match processBatch runT { st with ready := [] } st.ready with
            | (st'', none) => orchLoopCore runT fuel st''
            | (st'', some e) => (st'', some e) := rfl

/-! ### Light invariant: the log determines the accumulator and every
dispatch is sound (any plan, any worker) -/

theorem runTask_light (plan : List PlannerTask) (deps : List (String × List String))
    (w : String → WorkerOutcome) (st : OrchSt) (id : String)
    (hacc : accumOfLog st.log = st.completed) (hsound : DispatchSoundP plan st.log) :
    ∀ st' e, runTaskGen (buildTaskMap plan) deps mkPromptPattern (assignTaskPattern w) st id
      = (st', e) →
    accumOfLog st'.log = st'.completed ∧ DispatchSoundP plan st'.log := by
  have hacc1 : accumOfLog (st.log ++ [OrchEvent.started id]) = st.completed := by
    rw [accumOfLog, accumOfLogFrom_append, accumOfLogFrom_started]
    exact hacc
  have hsound1 : DispatchSoundP plan (st.log ++ [OrchEvent.started id]) :=
    dispatchSoundP_append_nondispatch plan st.log _ hsound (by intro _ _ h; cases h)
  cases hlook : lookupA (buildTaskMap plan) id with
  | none =>
    have hrun : runTaskGen (buildTaskMap plan) deps mkPromptPattern (assignTaskPattern w) st id
        = ({ st with log := st.log ++ [OrchEvent.started id] }, some (.keyError id)) := by
      simp only [runTaskGen, hlook]
    intro st' e h
    rw [hrun] at h
    cases h
    exact ⟨hacc1, hsound1⟩
  | some task =>
    cases hres : resolveInputs st.completed task.inputs [] with
    | error e0 =>
      have hrun : runTaskGen (buildTaskMap plan) deps mkPromptPattern (assignTaskPattern w) st id
          = ({ st with log := st.log ++ [OrchEvent.started id] }, some e0) := by
        simp only [runTaskGen, hlook, hres]
      intro st' e h
      rw [hrun] at h
      cases h
      exact ⟨hacc1, hsound1⟩
    | ok resolved =>
      obtain ⟨hall, hrestr⟩ := resolveInputs_ok st.completed task.inputs [] resolved hres
      have hsound2 : DispatchSoundP plan
          ((st.log ++ [OrchEvent.started id])
            ++ [OrchEvent.dispatched id (mkPromptPattern id task resolved)]) := by
        apply dispatchSoundP_append_single plan _ _ hsound1
        intro id' p' hp'
        cases hp'
        refine ⟨task, hlook, ?_, ?_⟩
        · intro d hd
          have hk : hasKey (accumOfLog (st.log ++ [OrchEvent.started id])) d = true := by
            rw [hacc1]
            exact hall d hd
          rcases hasKey_accumOfLogFrom [] _ d hk with hfalse | hw
          · exact absurd hfalse (by simp [hasKey, lookupA])
          · exact hw
        · rw [hrestr, hacc1]
      cases hassign : assignTaskPattern w (mkPromptPattern id task resolved) with
      | error e1 =>
        have hrun : runTaskGen (buildTaskMap plan) deps mkPromptPattern (assignTaskPattern w) st id
            = ({ st with log := (st.log ++ [OrchEvent.started id])
                  ++ [OrchEvent.dispatched id (mkPromptPattern id task resolved)] },
               some e1) := by
          simp only [runTaskGen, hlook, hres, hassign]
        intro st' e h
        rw [hrun] at h
        cases h
        refine ⟨?_, hsound2⟩
        rw [accumOfLog, accumOfLogFrom_append, accumOfLogFrom_append, accumOfLogFrom_started,
          accumOfLogFrom_dispatched]
        exact hacc
      | ok result =>
        have hrun : runTaskGen (buildTaskMap plan) deps mkPromptPattern (assignTaskPattern w) st id
            = decDependents
                { st with completed := insertAssoc st.completed id result,
                          log := ((st.log ++ [OrchEvent.started id])
                            ++ [OrchEvent.dispatched id (mkPromptPattern id task resolved)])
                            ++ [OrchEvent.wrote id result] }
                ((lookupA deps id).getD []) := by
          simp only [runTaskGen, hlook, hres, hassign]
        intro st' e h
        rw [hrun] at h
        obtain ⟨hc, hl⟩ := decDependents_frame _ _ _ _ h
        constructor
        · rw [hl, hc]
          rw [accumOfLog, accumOfLogFrom_append, accumOfLogFrom_append, accumOfLogFrom_append,
            accumOfLogFrom_started, accumOfLogFrom_dispatched, accumOfLogFrom_wrote]
          rw [show accumOfLogFrom [] st.log = st.completed from hacc]
        · rw [hl]
          exact dispatchSoundP_append_nondispatch plan _ _ hsound2 (by intro _ _ h'; cases h')

theorem processBatch_light (plan : List PlannerTask) (deps : List (String × List String))
    (w : String → WorkerOutcome) :
    ∀ (batch : List String) (st : OrchSt),
    accumOfLog st.log = st.completed → DispatchSoundP plan st.log →
    ∀ st' e, processBatch
        (runTaskGen (buildTaskMap plan) deps mkPromptPattern (assignTaskPattern w)) st batch
      = (st', e) →
    accumOfLog st'.log = st'.completed ∧ DispatchSoundP plan st'.log := by
  intro batch
  induction batch with
  | nil =>
    intro st hacc hsound st' e h
    rw [processBatch_nil] at h
    cases h
    exact ⟨hacc, hsound⟩
  | cons id rest ih =>
    intro st hacc hsound st' e h
    rw [processBatch_cons] at h
    cases hrt : runTaskGen (buildTaskMap plan) deps mkPromptPattern (assignTaskPattern w) st id with
    | mk stm em =>
      obtain ⟨hacc', hsound'⟩ := runTask_light plan deps w st id hacc hsound stm em hrt
      rw [hrt] at h
      cases em with
      | none => exact ih stm hacc' hsound' st' e h
      | some e0 =>
        cases h
        exact ⟨hacc', hsound'⟩

theorem orchLoopCore_light (plan : List PlannerTask) (deps : List (String × List String))
    (w : String → WorkerOutcome) :
    ∀ (fuel : Nat) (st : OrchSt),
    accumOfLog st.log = st.completed → DispatchSoundP plan st.log →
    ∀ st' e, orchLoopCore
        (runTaskGen (buildTaskMap plan) deps mkPromptPattern (assignTaskPattern w)) fuel st
      = (st', e) →
    accumOfLog st'.log = st'.completed ∧ DispatchSoundP plan st'.log := by
  intro fuel
  induction fuel with
  | zero =>
    intro st hacc hsound st' e h
    rw [orchLoopCore_zero] at h
    cases h
    exact ⟨hacc, hsound⟩
  | succ fuel ih =>
    intro st hacc hsound st' e h
    cases hready : st.ready with
    | nil =>
      have heq : orchLoopCore
          (runTaskGen (buildTaskMap plan) deps mkPromptPattern (assignTaskPattern w))
          (fuel + 1) st = (st, none) := by
        rw [orchLoopCore_succ, hready]
      rw [heq] at h
      cases h
      exact ⟨hacc, hsound⟩
    | cons a rest =>
      have heq : orchLoopCore
          (runTaskGen (buildTaskMap plan) deps mkPromptPattern (assignTaskPattern w))
          (fuel + 1) st
        = (match processBatch
              (runTaskGen (buildTaskMap plan) deps mkPromptPattern (assignTaskPattern w))
              { st with ready := [] } (a :: rest) with
           | (st'', none) => orchLoopCore
               (runTaskGen (buildTaskMap plan) deps mkPromptPattern (assignTaskPattern w))
               fuel st''
           | (st'', some e) => (st'', some e)) := by
        rw [orchLoopCore_succ, hready]
      rw [heq] at h
      cases hb : processBatch
          (runTaskGen (buildTaskMap plan) deps mkPromptPattern (assignTaskPattern w))
          { st with ready := [] } (a :: rest) with
      | mk stb eb =>
        obtain ⟨hacc', hsound'⟩ := processBatch_light plan deps w (a :: rest)
          { st with ready := [] } hacc hsound stb eb hb
        rw [hb] at h
        cases eb with
        | none => exact ih stb hacc' hsound' st' e h
        | some e0 =>
          cases h
          exact ⟨hacc', hsound'⟩

/-- The dispatch events of every run of the canonical orchestrator are
sound, for any plan and worker, whether the run succeeds or aborts. -/
theorem orchestratePatternRun_some (w : String → WorkerOutcome) (tp : TasksPlan) :
    orchestratePatternRun w (some tp)
      = if tp.plan.length < 1 then ⟨.ok ⟨[]⟩, []⟩
        else
          match orchLoopCore
              (runTaskGen (buildTaskMap tp.plan) (buildDependents tp.plan) mkPromptPattern
                (assignTaskPattern w))
              (tp.plan.length + 1)
              ⟨[], buildDepCount tp.plan, initReady (buildDepCount tp.plan), []⟩ with
          | (st, none) => ⟨.ok ⟨st.completed⟩, st.log⟩
          | (st, some e) => ⟨.error e, st.log⟩ := rfl

theorem orchestrateToolRun_some (w : String → WorkerOutcome) (tp : TasksPlan) :
    orchestrateToolRun w (some tp)
      = if tp.plan.length < 1 then ⟨.ok ⟨[]⟩, []⟩
        else
          match orchLoopCore
              (runTaskGen (buildTaskMap tp.plan) (buildDependents tp.plan)
                (fun _ task resolved => mkPromptTool task resolved) (assignTaskTool w))
              (tp.plan.length + 1)
              ⟨[], buildDepCount tp.plan, initReady (buildDepCount tp.plan), []⟩ with
          | (st, none) => ⟨.ok ⟨st.completed⟩, st.log⟩
          | (st, some e) => ⟨.error e, st.log⟩ := rfl

/-- The dispatch events of every run of the canonical orchestrator are
sound, for any plan and worker, whether the run succeeds or aborts. -/
theorem orchestratePatternRun_sound (w : String → WorkerOutcome) (tp : TasksPlan) :
    DispatchSoundP tp.plan (orchestratePatternRun w (some tp)).log := by
  rw [orchestratePatternRun_some]
  by_cases hlen : tp.plan.length < 1
  · rw [if_pos hlen]
    intro pre id p post hdec
    exact absurd hdec (by simp)
  · rw [if_neg hlen]
    have hsound0 : DispatchSoundP tp.plan ([] : List OrchEvent) := by
      intro pre id p post hdec
      exact absurd hdec (by simp)
    cases hrun : orchLoopCore
        (runTaskGen (buildTaskMap tp.plan) (buildDependents tp.plan) mkPromptPattern
          (assignTaskPattern w))
        (tp.plan.length + 1)
        ⟨[], buildDepCount tp.plan, initReady (buildDepCount tp.plan), []⟩ with
    | mk st e =>
      obtain ⟨_, hsound⟩ := orchLoopCore_light tp.plan (buildDependents tp.plan) w
        (tp.plan.length + 1) ⟨[], buildDepCount tp.plan, initReady (buildDepCount tp.plan), []⟩
        rfl hsound0 st e hrun
      cases e with
      | none => exact hsound
      | some e0 => exact hsound

/-! ### Heavy invariant: one `run_task` execution preserves the scheduler
invariant (plans with unique task ids) -/

theorem assignTaskPattern_error (w : String → WorkerOutcome) (p : String) (e : OrchError)
    (h : assignTaskPattern w p = .error e) : ∃ msg, e = .workerFatal msg ∧ w p = .fatal msg := by
  unfold assignTaskPattern at h
  cases hw : w p <;> rw [hw] at h <;> simp at h
  exact ⟨_, h.symm, rfl⟩

theorem runTask_step (plan : List PlannerTask) (hids : (planIds plan).Nodup)
    (w : String → WorkerOutcome) (pending : List String) (id : String) (st : OrchSt)
    (hinv : LoopInv plan st (id :: pending)) :
    (∃ st' out, runTaskGen (buildTaskMap plan) (buildDependents plan) mkPromptPattern
        (assignTaskPattern w) st id = (st', none) ∧
      LoopInv plan st' pending ∧
      st'.completed = st.completed ++ [(id, out)]) ∨
    (∃ st' msg, runTaskGen (buildTaskMap plan) (buildDependents plan) mkPromptPattern
        (assignTaskPattern w) st id = (st', some (.workerFatal msg)) ∧
      ∃ s, w s = .fatal msg) := by
  have hidmem : id ∈ (id :: pending) ++ st.ready := by simp
  obtain ⟨t, ht, htid⟩ := (mem_planIds_iff plan id).1 (hinv.prSub id hidmem)
  have hlook : lookupA (buildTaskMap plan) id = some t := by
    rw [← htid]
    exact buildTaskMap_lookup plan hids t ht
  have huc : unresolvedCount st.completed t = 0 := hinv.prZero id hidmem t ht htid
  have hall : ∀ d ∈ t.inputs, hasKey st.completed d = true :=
    (unresolvedCount_eq_zero_iff _ _).1 huc
  have hres : resolveInputs st.completed t.inputs []
      = .ok (restrictFrom [] st.completed t.inputs) :=
    resolveInputs_ok_of_all st.completed t.inputs [] hall
  have hfresh : hasKey st.completed id = false := hinv.prDisj id hidmem
  have hheadnot : id ∉ pending ++ st.ready := by
    have h1 : (id :: (pending ++ st.ready)).Nodup := by
      have := hinv.prNodup
      rwa [List.cons_append] at this
    exact (List.nodup_cons.1 h1).1
  have hprnodup : (pending ++ st.ready).Nodup := by
    have h1 : (id :: (pending ++ st.ready)).Nodup := by
      have := hinv.prNodup
      rwa [List.cons_append] at this
    exact (List.nodup_cons.1 h1).2
  cases hassign : assignTaskPattern w
      (mkPromptPattern id t (restrictFrom [] st.completed t.inputs)) with
  | error e0 =>
    obtain ⟨msg, hmsg, hwp⟩ := assignTaskPattern_error w _ e0 hassign
    right
    refine ⟨{ st with log := (st.log ++ [OrchEvent.started id])
        ++ [OrchEvent.dispatched id
            (mkPromptPattern id t (restrictFrom [] st.completed t.inputs))] }, msg, ?_,
      ⟨mkPromptPattern id t (restrictFrom [] st.completed t.inputs), hwp⟩⟩
    have hrun : runTaskGen (buildTaskMap plan) (buildDependents plan) mkPromptPattern
        (assignTaskPattern w) st id
        = ({ st with log := (st.log ++ [OrchEvent.started id])
            ++ [OrchEvent.dispatched id
                (mkPromptPattern id t (restrictFrom [] st.completed t.inputs))] },
           some e0) := by
      simp only [runTaskGen, hlook, hres, hassign]
    rw [hrun, hmsg]
  | ok out =>
    left
    have hins : insertAssoc st.completed id out = st.completed ++ [(id, out)] :=
      insertAssoc_eq_append st.completed id out hfresh
    have hrun : runTaskGen (buildTaskMap plan) (buildDependents plan) mkPromptPattern
        (assignTaskPattern w) st id
        = decDependents
            { st with completed := insertAssoc st.completed id out,
                      log := ((st.log ++ [OrchEvent.started id])
                        ++ [OrchEvent.dispatched id
                            (mkPromptPattern id t (restrictFrom [] st.completed t.inputs))])
                        ++ [OrchEvent.wrote id out] }
            ((lookupA (buildDependents plan) id).getD []) := by
      simp only [runTaskGen, hlook, hres, hassign]
    set st3 : OrchSt :=
      { st with completed := insertAssoc st.completed id out,
                log := ((st.log ++ [OrchEvent.started id])
                  ++ [OrchEvent.dispatched id
                      (mkPromptPattern id t (restrictFrom [] st.completed t.inputs))])
                  ++ [OrchEvent.wrote id out] } with hst3
    have hkeys3 : keysOf st3.completed = keysOf st.completed ++ [id] := by
      rw [hst3]
      show keysOf (insertAssoc st.completed id out) = keysOf st.completed ++ [id]
      rw [hins, keysOf_append]
      rfl
    have hkey3id : hasKey st3.completed id = true := by
      show hasKey (insertAssoc st.completed id out) id = true
      simp [hasKey, lookupA_insert_self]
    have hnotin_spec : ∀ id' ∈ depListSpec plan id, id' ≠ id ∧ hasKey st.completed id' = false := by
      intro id' hmem
      obtain ⟨t2, ht2, ht2id, hin2⟩ := depListSpec_mem plan id id' hmem
      constructor
      · intro hc
        subst hc
        have huc2 : unresolvedCount st.completed t2 = 0 := hinv.prZero id' hidmem t2 ht2 ht2id
        have := (unresolvedCount_eq_zero_iff _ _).1 huc2 id' hin2
        rw [this] at hfresh
        exact absurd hfresh (by simp)
      · cases hk : hasKey st.completed id' with
        | false => rfl
        | true =>
          have := orderedClosed_closed plan st.completed hinv.compOrdered id' hk t2 ht2 ht2id
            id hin2
          rw [this] at hfresh
          exact absurd hfresh (by simp)
    have hmid : MidInv plan id st3 pending (depListSpec plan id) := by
      refine ⟨?_, ?_, ?_, ?_, ?_, ?_, ?_, ?_, ?_, ?_, ?_, ?_, ?_, ?_, ?_, ?_⟩
      · -- compSub
        intro k hk
        rw [hkeys3] at hk
        rcases List.mem_append.1 hk with h | h
        · exact hinv.compSub k h
        · rw [List.mem_singleton] at h
          subst h
          exact hinv.prSub k hidmem
      · -- compNodup
        rw [hkeys3]
        exact nodup_append_singleton _ _ hinv.compNodup
          (fun hc => absurd ((hasKey_iff_mem st.completed id).2 hc) (by rw [hfresh]; simp))
      · -- compOrdered
        show OrderedClosed plan (insertAssoc st.completed id out)
        rw [hins]
        refine orderedClosed_snoc plan st.completed id out hinv.compOrdered ?_
        intro t' ht' ht'id d hd
        have huc' : unresolvedCount st.completed t' = 0 := hinv.prZero id hidmem t' ht' ht'id
        exact (unresolvedCount_eq_zero_iff _ _).1 huc' d hd
      · -- prNodup
        exact hprnodup
      · -- prSub
        intro id' h
        exact hinv.prSub id' (by
          rw [List.cons_append]
          exact List.mem_cons_of_mem _ h)
      · -- prDisj
        intro id' h
        have hne : id' ≠ id := fun hc => hheadnot (hc ▸ h)
        show hasKey (insertAssoc st.completed id out) id' = false
        exact hasKey_insert_false st.completed id id' out hne
          (hinv.prDisj id' (by
            rw [List.cons_append]
            exact List.mem_cons_of_mem _ h))
      · -- counts
        intro t' ht'
        have h1 := hinv.counts t' ht'
        have h2 : unresolvedCount st.completed t'
            = unresolvedCount (insertAssoc st.completed id out) t' + t'.inputs.count id :=
          unresolvedCount_insert st.completed id out hfresh t'
        have h3 : (depListSpec plan id).count t'.id = t'.inputs.count id :=
          depListSpec_count plan hids t' ht' id
        show lookupA st.depCount t'.id
            = some ((unresolvedCount (insertAssoc st.completed id out) t'
              + (depListSpec plan id).count t'.id : Nat) : Int)
        rw [h1, h2, h3]
      · -- prZero
        intro id' h t' ht' ht'id
        have hmem' : id' ∈ (id :: pending) ++ st.ready := by
          rw [List.cons_append]
          exact List.mem_cons_of_mem _ h
        have huc' : unresolvedCount st.completed t' = 0 := hinv.prZero id' hmem' t' ht' ht'id
        constructor
        · exact unresolvedCount_zero_insert st.completed id out t' huc'
        · rw [List.count_eq_zero]
          intro hc
          have hne := (hnotin_spec id' hc).1
          have huc'' : hasKey st.completed id = true := by
            obtain ⟨t2, ht2, ht2id, hin2⟩ := depListSpec_mem plan id id' hc
            have huc2 : unresolvedCount st.completed t2 = 0 :=
              hinv.prZero id' hmem' t2 ht2 ht2id
            exact (unresolvedCount_eq_zero_iff _ _).1 huc2 id hin2
          rw [huc''] at hfresh
          exact absurd hfresh (by simp)
      · -- sched
        intro t' ht' hnotdone huc' hcount'
        have hne : t'.id ≠ id := by
          intro hc
          rw [hc, hkey3id] at hnotdone
          exact absurd hnotdone (by simp)
        have hnotdone0 : hasKey st.completed t'.id = false := by
          cases hk : hasKey st.completed t'.id with
          | false => rfl
          | true =>
            have : hasKey st3.completed t'.id = true := by
              show hasKey (insertAssoc st.completed id out) t'.id = true
              exact hasKey_insert_of st.completed id t'.id out hk
            rw [this] at hnotdone
            exact absurd hnotdone (by simp)
        have h3 : (depListSpec plan id).count t'.id = t'.inputs.count id :=
          depListSpec_count plan hids t' ht' id
        have huc0 : unresolvedCount st.completed t' = 0 := by
          have h2 : unresolvedCount st.completed t'
              = unresolvedCount (insertAssoc st.completed id out) t' + t'.inputs.count id :=
            unresolvedCount_insert st.completed id out hfresh t'
          have hx : unresolvedCount (insertAssoc st.completed id out) t' = 0 := huc'
          rw [h2, hx, ← h3, hcount']
        have := hinv.sched t' ht' hnotdone0 huc0
        rw [List.cons_append] at this
        rcases List.mem_cons.1 this with hc | hc
        · exact absurd hc hne
        · exact hc
      · -- remSub
        intro id' h
        obtain ⟨t2, ht2, ht2id, hin2⟩ := depListSpec_mem plan id id' h
        exact ⟨t2, ht2, ht2id, hin2⟩
      · -- remNotDone
        intro id' h
        obtain ⟨hne, hnot⟩ := hnotin_spec id' h
        show hasKey (insertAssoc st.completed id out) id' = false
        exact hasKey_insert_false st.completed id id' out hne hnot
      · -- logStarted
        show startedIds st3.log = keysOf st3.completed
        rw [hkeys3, hst3]
        show startedIds (((st.log ++ [OrchEvent.started id]) ++ [_]) ++ [_])
          = keysOf st.completed ++ [id]
        rw [startedIds_append, startedIds_append, startedIds_append, startedIds_started,
          startedIds_dispatched, startedIds_wrote, hinv.logStarted]
        simp
      · -- logWrites
        show writeIds st3.log = keysOf st3.completed
        rw [hkeys3, hst3]
        show writeIds (((st.log ++ [OrchEvent.started id]) ++ [_]) ++ [_])
          = keysOf st.completed ++ [id]
        rw [writeIds_append, writeIds_append, writeIds_append, writeIds_started,
          writeIds_dispatched, writeIds_wrote, hinv.logWrites]
        simp
      · -- logAccum
        show accumOfLog st3.log = st3.completed
        rw [hst3]
        show accumOfLog (((st.log ++ [OrchEvent.started id]) ++ [_]) ++ [OrchEvent.wrote id out])
          = insertAssoc st.completed id out
        rw [accumOfLog, accumOfLogFrom_append, accumOfLogFrom_append, accumOfLogFrom_append,
          accumOfLogFrom_started, accumOfLogFrom_dispatched, accumOfLogFrom_wrote]
        rw [show accumOfLogFrom [] st.log = st.completed from hinv.logAccum]
      · -- logSound
        have hsound1 : DispatchSoundP plan (st.log ++ [OrchEvent.started id]) :=
          dispatchSoundP_append_nondispatch plan st.log _ hinv.logSound
            (by intro _ _ h'; cases h')
        have hacc1 : accumOfLog (st.log ++ [OrchEvent.started id]) = st.completed := by
          rw [accumOfLog, accumOfLogFrom_append, accumOfLogFrom_started]
          exact hinv.logAccum
        have hsound2 : DispatchSoundP plan
            ((st.log ++ [OrchEvent.started id])
              ++ [OrchEvent.dispatched id
                  (mkPromptPattern id t (restrictFrom [] st.completed t.inputs))]) := by
          apply dispatchSoundP_append_single plan _ _ hsound1
          intro id' p' hp'
          cases hp'
          refine ⟨t, hlook, ?_, ?_⟩
          · intro d hd
            have hk : hasKey (accumOfLog (st.log ++ [OrchEvent.started id])) d = true := by
              rw [hacc1]
              exact hall d hd
            rcases hasKey_accumOfLogFrom [] _ d hk with hfalse | hw2
            · exact absurd hfalse (by simp [hasKey, lookupA])
            · exact hw2
          · rw [hacc1]
        show DispatchSoundP plan st3.log
        rw [hst3]
        exact dispatchSoundP_append_nondispatch plan _ _ hsound2 (by intro _ _ h'; cases h')
      · -- logDispatchKeys
        intro id' p' hmem
        rw [hkeys3]
        rw [hst3] at hmem
        have hmem' : OrchEvent.dispatched id' p' ∈ st.log ∨
            (OrchEvent.dispatched id' p' = OrchEvent.started id ∨
             OrchEvent.dispatched id' p'
               = OrchEvent.dispatched id
                   (mkPromptPattern id t (restrictFrom [] st.completed t.inputs)) ∨
             OrchEvent.dispatched id' p' = OrchEvent.wrote id out) := by
          simp only [List.append_assoc, List.mem_append, List.cons_append, List.nil_append,
            List.mem_cons, List.not_mem_nil, or_false] at hmem
          tauto
        rcases hmem' with hm | hm | hm | hm
        · exact List.mem_append.2 (Or.inl (hinv.logDispatchKeys id' p' hm))
        · cases hm
        · cases hm
          exact List.mem_append.2 (Or.inr (by simp))
        · cases hm
    obtain ⟨st4, hdec, hmid4, hcomp4, _⟩ :=
      decDependents_inv plan hids id pending (depListSpec plan id) st3 hmid
    refine ⟨st4, out, ?_, midInv_to_loopInv plan id st4 pending hmid4, ?_⟩
    · rw [hrun, buildDependents_at plan id]
      exact hdec
    · rw [hcomp4, hst3]
      show insertAssoc st.completed id out = st.completed ++ [(id, out)]
      exact hins

theorem length_le_of_nodup_subset {α : Type} (l1 l2 : List α) (h1 : l1.Nodup)
    (hsub : ∀ a ∈ l1, a ∈ l2) : l1.length ≤ l2.length :=
  List.Subperm.length_le (List.subperm_of_subset h1 hsub)

theorem processBatch_step (plan : List PlannerTask) (hids : (planIds plan).Nodup)
    (w : String → WorkerOutcome) :
    ∀ (batch : List String) (st : OrchSt), LoopInv plan st batch →
    (∃ st', processBatch (runTaskGen (buildTaskMap plan) (buildDependents plan) mkPromptPattern
        (assignTaskPattern w)) st batch = (st', none) ∧
      LoopInv plan st' [] ∧ keysOf st'.completed = keysOf st.completed ++ batch) ∨
    (∃ st' msg, processBatch (runTaskGen (buildTaskMap plan) (buildDependents plan) mkPromptPattern
        (assignTaskPattern w)) st batch = (st', some (.workerFatal msg)) ∧
      ∃ s, w s = .fatal msg) := by
  intro batch
  induction batch with
  | nil =>
    intro st hinv
    left
    exact ⟨st, processBatch_nil _ st, hinv, by simp⟩
  | cons id rest ih =>
    intro st hinv
    rcases runTask_step plan hids w rest id st hinv with
      ⟨stm, out, hrt, hinv', hcomp⟩ | ⟨stm, msg, hrt, hws⟩
    · rcases ih stm hinv' with ⟨st', hpb, hinv'', hkeys⟩ | ⟨st', msg, hpb, hws⟩
      · left
        refine ⟨st', ?_, hinv'', ?_⟩
        · rw [processBatch_cons, hrt]
          exact hpb
        · rw [hkeys, hcomp, keysOf_append]
          simp [keysOf]
      · right
        refine ⟨st', msg, ?_, hws⟩
        rw [processBatch_cons, hrt]
        exact hpb
    · right
      refine ⟨stm, msg, ?_, hws⟩
      rw [processBatch_cons, hrt]

theorem loopInv_batch (plan : List PlannerTask) (st : OrchSt) (h : LoopInv plan st []) :
    LoopInv plan { st with ready := [] } st.ready := by
  refine ⟨h.compSub, h.compNodup, h.compOrdered, ?_, ?_, ?_, h.counts, ?_, ?_,
    h.logStarted, h.logWrites, h.logAccum, h.logSound, h.logDispatchKeys⟩
  · show (st.ready ++ []).Nodup
    simpa using h.prNodup
  · intro id hid
    apply h.prSub
    simpa using hid
  · intro id hid
    apply h.prDisj
    simpa using hid
  · intro id hid
    apply h.prZero
    simpa using hid
  · intro t ht h1 h2
    have := h.sched t ht h1 h2
    simpa using this

theorem orchLoop_run (plan : List PlannerTask) (hids : (planIds plan).Nodup)
    (w : String → WorkerOutcome) :
    ∀ (fuel : Nat) (st : OrchSt), LoopInv plan st [] →
    plan.length < fuel + (keysOf st.completed).length →
    (∃ st', orchLoopCore (runTaskGen (buildTaskMap plan) (buildDependents plan) mkPromptPattern
        (assignTaskPattern w)) fuel st = (st', none) ∧
      LoopInv plan st' [] ∧ st'.ready = []) ∨
    (∃ st' msg, orchLoopCore (runTaskGen (buildTaskMap plan) (buildDependents plan) mkPromptPattern
        (assignTaskPattern w)) fuel st = (st', some (.workerFatal msg)) ∧
      ∃ s, w s = .fatal msg) := by
  intro fuel
  induction fuel with
  | zero =>
    intro st hinv hfuel
    exfalso
    have hle : (keysOf st.completed).length ≤ (planIds plan).length :=
      length_le_of_nodup_subset _ _ hinv.compNodup hinv.compSub
    have : (planIds plan).length = plan.length := by
      simp [planIds]
    omega
  | succ fuel ih =>
    intro st hinv hfuel
    cases hready : st.ready with
    | nil =>
      left
      refine ⟨st, ?_, hinv, hready⟩
      rw [orchLoopCore_succ, hready]
    | cons a rest =>
      have hinvb : LoopInv plan { st with ready := [] } st.ready := loopInv_batch plan st hinv
      rw [hready] at hinvb
      rcases processBatch_step plan hids w (a :: rest) { st with ready := [] } hinvb with
        ⟨stb, hpb, hinv', hkeys⟩ | ⟨stb, msg, hpb, hws⟩
      · have heq : orchLoopCore (runTaskGen (buildTaskMap plan) (buildDependents plan)
            mkPromptPattern (assignTaskPattern w)) (fuel + 1) st
          = orchLoopCore (runTaskGen (buildTaskMap plan) (buildDependents plan)
              mkPromptPattern (assignTaskPattern w)) fuel stb := by
          rw [orchLoopCore_succ, hready, hpb]
        have hfuel' : plan.length < fuel + (keysOf stb.completed).length := by
          have : (keysOf stb.completed).length
              = (keysOf st.completed).length + (a :: rest).length := by
            rw [hkeys, List.length_append]
          rw [this]
          simp only [List.length_cons] at *
          omega
        rcases ih stb hinv' hfuel' with ⟨st', hrun, hinv'', hready''⟩ | ⟨st', msg, hrun, hws⟩
        · left
          exact ⟨st', by rw [heq]; exact hrun, hinv'', hready''⟩
        · right
          exact ⟨st', msg, by rw [heq]; exact hrun, hws⟩
      · right
        refine ⟨stb, msg, ?_, hws⟩
        rw [orchLoopCore_succ, hready, hpb]

/-! ### The initial scheduler state satisfies the invariant -/

theorem unresolvedCount_nil (t : PlannerTask) : unresolvedCount [] t = t.inputs.length := by
  unfold unresolvedCount
  simp [hasKey, lookupA]

theorem intCast_beq_zero (n : Nat) : ((n : Int) == 0) = (n == 0) := by
  cases hn : n == 0 with
  | true =>
    have : n = 0 := by simpa using hn
    subst this
    rfl
  | false =>
    have hne : n ≠ 0 := by simpa using hn
    have : ((n : Int) == 0) = false := by
      simp [hne]
    rw [this]

theorem initReady_eq (plan : List PlannerTask) (hids : (planIds plan).Nodup) :
    initReady (buildDepCount plan)
      = (plan.filter (fun t => t.inputs.length == 0)).map (fun t => t.id) := by
  rw [buildDepCount_eq plan hids]
  unfold initReady
  rw [List.filter_map, List.map_map]
  have hpred : ∀ t ∈ plan,
      ((fun kv : String × Int => kv.2 == 0) ∘ fun t => (t.id, (t.inputs.length : Int))) t
        = (fun t : PlannerTask => t.inputs.length == 0) t := by
    intro t _
    exact intCast_beq_zero t.inputs.length
  rw [List.filter_congr hpred]
  rfl

theorem loopInv_init (plan : List PlannerTask) (hids : (planIds plan).Nodup) :
    LoopInv plan ⟨[], buildDepCount plan, initReady (buildDepCount plan), []⟩ [] := by
  have hready := initReady_eq plan hids
  refine ⟨?_, ?_, ?_, ?_, ?_, ?_, ?_, ?_, ?_, rfl, rfl, rfl, ?_, ?_⟩
  · intro k hk
    simp [keysOf] at hk
  · simp [keysOf]
  · intro m1 id out m2 hdec
    exact absurd hdec (by simp)
  · show (([] : List String) ++ initReady (buildDepCount plan)).Nodup
    rw [List.nil_append, hready]
    have hsub : ((plan.filter (fun t => t.inputs.length == 0)).map
        (fun t => t.id)).Sublist (planIds plan) :=
      List.Sublist.map _ (List.filter_sublist plan)
    exact List.Nodup.sublist hsub hids
  · intro id hid
    rw [List.nil_append, hready] at hid
    obtain ⟨t, htf, hidt⟩ := List.mem_map.1 hid
    exact (mem_planIds_iff plan id).2 ⟨t, (List.mem_filter.1 htf).1, hidt⟩
  · intro id _
    rfl
  · intro t ht
    show lookupA (buildDepCount plan) t.id = some ((unresolvedCount [] t : Nat) : Int)
    rw [buildDepCount_lookup plan hids t ht, unresolvedCount_nil]
  · intro id hid t ht htid
    rw [List.nil_append, hready] at hid
    obtain ⟨t', ht'f, hid'⟩ := List.mem_map.1 hid
    obtain ⟨ht', hlen⟩ := List.mem_filter.1 ht'f
    have heq : t = t' := eq_of_mem_of_id_eq plan hids t t' ht ht' (by rw [htid, ← hid'])
    subst heq
    show unresolvedCount [] t = 0
    rw [unresolvedCount_nil]
    simpa using hlen
  · intro t ht _ huc0
    show t.id ∈ ([] : List String) ++ initReady (buildDepCount plan)
    rw [List.nil_append, hready]
    rw [show unresolvedCount ([] : List (String × TaskOutput)) t
      = t.inputs.length from unresolvedCount_nil t] at huc0
    exact List.mem_map.2 ⟨t, List.mem_filter.2 ⟨ht, by simpa using huc0⟩, rfl⟩
  · intro pre id p post hdec
    exact absurd hdec (by simp)
  · intro id p hmem
    simp at hmem

/-- Case analysis of a full run of `_orchestrate_tasks` on a plan with
unique task ids: either the loop terminates normally with the final
invariant, or a worker exception aborts the run; in particular no
`KeyError` and no fuel exhaustion can occur. -/
theorem orchestratePatternRun_cases (w : String → WorkerOutcome) (tp : TasksPlan)
    (hids : NodupIds tp) :
    (∃ resp log, orchestratePatternRun w (some tp) = ⟨.ok resp, log⟩ ∧
      (keysOf resp.tasks_executed).Nodup ∧
      (∀ k ∈ keysOf resp.tasks_executed, k ∈ planIds tp.plan) ∧
      OrderedClosed tp.plan resp.tasks_executed ∧
      (∀ t ∈ tp.plan, hasKey resp.tasks_executed t.id = false →
        unresolvedCount resp.tasks_executed t ≠ 0) ∧
      startedIds log = keysOf resp.tasks_executed ∧
      writeIds log = keysOf resp.tasks_executed ∧
      (∀ id p, OrchEvent.dispatched id p ∈ log → id ∈ keysOf resp.tasks_executed)) ∨
    (∃ msg log, orchestratePatternRun w (some tp) = ⟨.error (.workerFatal msg), log⟩ ∧
      ∃ s, w s = .fatal msg) := by
  rw [orchestratePatternRun_some]
  by_cases hlen : tp.plan.length < 1
  · left
    have hnil : tp.plan = [] := List.length_eq_zero.1 (by omega)
    refine ⟨⟨[]⟩, [], by rw [if_pos hlen], by simp [keysOf], by simp [keysOf], ?_, ?_, rfl, rfl,
      ?_⟩
    · intro m1 id out m2 hdec
      exact absurd hdec (by simp)
    · intro t ht
      rw [hnil] at ht
      simp at ht
    · intro id p hmem
      simp at hmem
  · rw [if_neg hlen]
    have hinv0 := loopInv_init tp.plan hids
    have hfuel : tp.plan.length < (tp.plan.length + 1)
        + (keysOf (⟨[], buildDepCount tp.plan, initReady (buildDepCount tp.plan),
            []⟩ : OrchSt).completed).length := by
      simp [keysOf]
    rcases orchLoop_run tp.plan hids w (tp.plan.length + 1)
        ⟨[], buildDepCount tp.plan, initReady (buildDepCount tp.plan), []⟩ hinv0 hfuel with
      ⟨st', hrun', hinv', hready'⟩ | ⟨st', msg, hrun', hws⟩
    · left
      rw [hrun']
      refine ⟨⟨st'.completed⟩, st'.log, rfl, hinv'.compNodup, hinv'.compSub,
        hinv'.compOrdered, ?_, hinv'.logStarted, hinv'.logWrites, hinv'.logDispatchKeys⟩
      intro t ht hnotdone huc0
      have := hinv'.sched t ht hnotdone huc0
      rw [List.nil_append, hready'] at this
      simp at this
    · right
      rw [hrun']
      exact ⟨msg, st'.log, rfl, hws⟩

/-! ### Fatal worker failures propagate (no swallowing) -/

theorem noFatalDispatch_append (w : String → WorkerOutcome) (l Δ : List OrchEvent)
    (h : NoFatalDispatch w l)
    (hΔ : ∀ id p, OrchEvent.dispatched id p ∈ Δ → ∀ msg, w p ≠ .fatal msg) :
    NoFatalDispatch w (l ++ Δ) := by
  intro id p hmem msg
  rcases List.mem_append.1 hmem with hm | hm
  · exact h id p hm msg
  · exact hΔ id p hm msg

theorem assignTaskPattern_ok_not_fatal (w : String → WorkerOutcome) (p : String)
    (out : TaskOutput) (h : assignTaskPattern w p = .ok out) : ∀ msg, w p ≠ .fatal msg := by
  intro msg hc
  rw [show assignTaskPattern w p = .error (.workerFatal msg) by
    simp [assignTaskPattern, hc]] at h
  exact absurd h (by simp)

theorem runTask_noFatal (plan : List PlannerTask) (deps : List (String × List String))
    (w : String → WorkerOutcome) (st : OrchSt) (id : String)
    (h : NoFatalDispatch w st.log) :
    ∀ st' e, runTaskGen (buildTaskMap plan) deps mkPromptPattern (assignTaskPattern w) st id
      = (st', e) →
    (∃ msg, e = some (.workerFatal msg)) ∨ NoFatalDispatch w st'.log := by
  cases hlook : lookupA (buildTaskMap plan) id with
  | none =>
    intro st' e hrun
    rw [show runTaskGen (buildTaskMap plan) deps mkPromptPattern (assignTaskPattern w) st id
        = ({ st with log := st.log ++ [OrchEvent.started id] }, some (.keyError id)) by
      simp only [runTaskGen, hlook]] at hrun
    cases hrun
    right
    exact noFatalDispatch_append w st.log _ h (by intro _ _ hc; simp at hc)
  | some task =>
    cases hres : resolveInputs st.completed task.inputs [] with
    | error e0 =>
      intro st' e hrun
      rw [show runTaskGen (buildTaskMap plan) deps mkPromptPattern (assignTaskPattern w) st id
          = ({ st with log := st.log ++ [OrchEvent.started id] }, some e0) by
        simp only [runTaskGen, hlook, hres]] at hrun
      cases hrun
      right
      exact noFatalDispatch_append w st.log _ h (by intro _ _ hc; simp at hc)
    | ok resolved =>
      cases hassign : assignTaskPattern w (mkPromptPattern id task resolved) with
      | error e0 =>
        intro st' e hrun
        obtain ⟨msg, hmsg, _⟩ := assignTaskPattern_error w _ e0 hassign
        rw [show runTaskGen (buildTaskMap plan) deps mkPromptPattern (assignTaskPattern w) st id
            = ({ st with log := (st.log ++ [OrchEvent.started id])
                ++ [OrchEvent.dispatched id (mkPromptPattern id task resolved)] }, some e0) by
          simp only [runTaskGen, hlook, hres, hassign]] at hrun
        cases hrun
        left
        exact ⟨msg, by rw [hmsg]⟩
      | ok out =>
        intro st' e hrun
        rw [show runTaskGen (buildTaskMap plan) deps mkPromptPattern (assignTaskPattern w) st id
            = decDependents
                { st with completed := insertAssoc st.completed id out,
                          log := ((st.log ++ [OrchEvent.started id])
                            ++ [OrchEvent.dispatched id (mkPromptPattern id task resolved)])
                            ++ [OrchEvent.wrote id out] }
                ((lookupA deps id).getD []) by
          simp only [runTaskGen, hlook, hres, hassign]] at hrun
        obtain ⟨_, hlog⟩ := decDependents_frame _ _ _ _ hrun
        right
        rw [hlog]
        have hnf := assignTaskPattern_ok_not_fatal w _ out hassign
        show NoFatalDispatch w
          (((st.log ++ [OrchEvent.started id])
            ++ [OrchEvent.dispatched id (mkPromptPattern id task resolved)])
            ++ [OrchEvent.wrote id out])
        rw [List.append_assoc, List.append_assoc]
        refine noFatalDispatch_append w st.log _ h ?_
        intro id' p' hmem msg
        simp only [List.cons_append, List.nil_append, List.mem_cons,
          List.not_mem_nil, or_false] at hmem
        rcases hmem with hc | hc | hc
        · cases hc
        · cases hc
          exact hnf msg
        · cases hc

theorem processBatch_noFatal (plan : List PlannerTask) (deps : List (String × List String))
    (w : String → WorkerOutcome) :
    ∀ (batch : List String) (st : OrchSt), NoFatalDispatch w st.log →
    ∀ st' e, processBatch (runTaskGen (buildTaskMap plan) deps mkPromptPattern
        (assignTaskPattern w)) st batch = (st', e) →
    (∃ msg, e = some (.workerFatal msg)) ∨ NoFatalDispatch w st'.log := by
  intro batch
  induction batch with
  | nil =>
    intro st h st' e hpb
    rw [processBatch_nil] at hpb
    cases hpb
    right
    exact h
  | cons id rest ih =>
    intro st h st' e hpb
    rw [processBatch_cons] at hpb
    cases hrt : runTaskGen (buildTaskMap plan) deps mkPromptPattern (assignTaskPattern w) st id with
    | mk stm em =>
      rw [hrt] at hpb
      rcases runTask_noFatal plan deps w st id h stm em hrt with ⟨msg, hmsg⟩ | hnext
      · subst hmsg
        cases hpb
        left
        exact ⟨msg, rfl⟩
      · cases em with
        | none => exact ih stm hnext st' e hpb
        | some e0 =>
          cases hpb
          right
          exact hnext

theorem orchLoop_noFatal (plan : List PlannerTask) (deps : List (String × List String))
    (w : String → WorkerOutcome) :
    ∀ (fuel : Nat) (st : OrchSt), NoFatalDispatch w st.log →
    ∀ st' e, orchLoopCore (runTaskGen (buildTaskMap plan) deps mkPromptPattern
        (assignTaskPattern w)) fuel st = (st', e) →
    (∃ msg, e = some (.workerFatal msg)) ∨ NoFatalDispatch w st'.log := by
  intro fuel
  induction fuel with
  | zero =>
    intro st h st' e hrun
    rw [orchLoopCore_zero] at hrun
    cases hrun
    right
    exact h
  | succ fuel ih =>
    intro st h st' e hrun
    cases hready : st.ready with
    | nil =>
      rw [orchLoopCore_succ, hready] at hrun
      cases hrun
      right
      exact h
    | cons a rest =>
      rw [orchLoopCore_succ, hready] at hrun
      cases hpb : processBatch (runTaskGen (buildTaskMap plan) deps mkPromptPattern
          (assignTaskPattern w)) { st with ready := [] } (a :: rest) with
      | mk stb eb =>
        rw [hpb] at hrun
        rcases processBatch_noFatal plan deps w (a :: rest) { st with ready := [] } h stb eb hpb
          with ⟨msg, hmsg⟩ | hnext
        · subst hmsg
          cases hrun
          left
          exact ⟨msg, rfl⟩
        · cases eb with
          | none => exact ih stb hnext st' e hrun
          | some e0 =>
            cases hrun
            right
            exact hnext

/-- In a run whose result is not a propagated worker exception, no
dispatched payload made the worker fail fatally. -/
theorem orchestratePatternRun_noFatal (w : String → WorkerOutcome) (tp : TasksPlan)
    (h : ∀ msg, (orchestratePatternRun w (some tp)).result ≠ .error (.workerFatal msg)) :
    NoFatalDispatch w (orchestratePatternRun w (some tp)).log := by
  rw [orchestratePatternRun_some] at h ⊢
  by_cases hlen : tp.plan.length < 1
  · rw [if_pos hlen]
    intro id p hmem
    exact absurd hmem (by simp)
  · rw [if_neg hlen] at h ⊢
    cases hrun : orchLoopCore (runTaskGen (buildTaskMap tp.plan) (buildDependents tp.plan)
        mkPromptPattern (assignTaskPattern w)) (tp.plan.length + 1)
        ⟨[], buildDepCount tp.plan, initReady (buildDepCount tp.plan), []⟩ with
    | mk st e =>
      have h0 : NoFatalDispatch w ([] : List OrchEvent) := by
        intro id p hmem
        exact absurd hmem (by simp)
      rcases orchLoop_noFatal tp.plan (buildDependents tp.plan) w (tp.plan.length + 1)
          ⟨[], buildDepCount tp.plan, initReady (buildDepCount tp.plan), []⟩ h0 st e hrun
        with ⟨msg, hmsg⟩ | hgood
      · exfalso
        subst hmsg
        rw [hrun] at h
        exact h msg rfl
      · cases e with
        | none => exact hgood
        | some e0 => exact hgood

/-! ### Completeness for closed acyclic plans, and blocked cyclic regions -/

theorem exists_min_by {α : Type} (f : α → Nat) :
    ∀ (l : List α), l ≠ [] → ∃ a ∈ l, ∀ b ∈ l, f a ≤ f b := by
  intro l
  induction l with
  | nil => intro h; exact absurd rfl h
  | cons a rest ih =>
    intro _
    by_cases hre : rest = []
    · subst hre
      refine ⟨a, List.mem_cons_self _ _, ?_⟩
      intro b hb
      rcases List.mem_cons.1 hb with rfl | hb'
      · exact Nat.le_refl _
      · simp at hb'
    · obtain ⟨m, hm, hmin⟩ := ih hre
      by_cases hle : f a ≤ f m
      · refine ⟨a, List.mem_cons_self _ _, ?_⟩
        intro b hb
        rcases List.mem_cons.1 hb with rfl | hb'
        · exact Nat.le_refl _
        · exact Nat.le_trans hle (hmin b hb')
      · refine ⟨m, List.mem_cons_of_mem _ hm, ?_⟩
        intro b hb
        rcases List.mem_cons.1 hb with rfl | hb'
        · exact Nat.le_of_lt (Nat.lt_of_not_le hle)
        · exact hmin b hb'

theorem completeness_of_final (tp : TasksPlan)
    (hclosed : ClosedRefs tp) (hacyc : AcyclicPlan tp)
    (completed : List (String × TaskOutput))
    (hsched : ∀ t ∈ tp.plan, hasKey completed t.id = false →
      unresolvedCount completed t ≠ 0) :
    ∀ t ∈ tp.plan, hasKey completed t.id = true := by
  obtain ⟨rank, hrank⟩ := hacyc
  by_contra hcon
  push_neg at hcon
  obtain ⟨t0, ht0, ht0not⟩ := hcon
  have ht0false : hasKey completed t0.id = false := by
    cases h : hasKey completed t0.id with
    | false => rfl
    | true => exact absurd h ht0not
  set U := tp.plan.filter (fun t => !(hasKey completed t.id)) with hU
  have hUne : U ≠ [] := by
    intro hc
    have : t0 ∈ U := List.mem_filter.2 ⟨ht0, by rw [ht0false]; rfl⟩
    rw [hc] at this
    simp at this
  obtain ⟨tm, htmU, htmin⟩ := exists_min_by (fun t => rank t.id) U hUne
  obtain ⟨htm, htmfalse⟩ := List.mem_filter.1 htmU
  have htmfalse' : hasKey completed tm.id = false := by
    simpa using htmfalse
  have huc : unresolvedCount completed tm ≠ 0 := hsched tm htm htmfalse'
  have hdex : ∃ d ∈ tm.inputs, hasKey completed d = false := by
    by_contra hno
    push_neg at hno
    apply huc
    rw [unresolvedCount_eq_zero_iff]
    intro d hd
    cases h : hasKey completed d with
    | true => rfl
    | false => exact absurd h (hno d hd)
  obtain ⟨d, hd, hdfalse⟩ := hdex
  obtain ⟨u, hu, huid⟩ := hclosed tm htm d hd
  have huU : u ∈ U := List.mem_filter.2 ⟨hu, by rw [huid, hdfalse]; rfl⟩
  have h1 : rank tm.id ≤ rank u.id := htmin u huU
  have h2 : rank d < rank tm.id := hrank tm htm d hd
  rw [huid] at h1
  omega

theorem blocked_has_blocked_input (tp : TasksPlan) (S : List String)
    (hS : ∀ id ∈ S, ∃ t ∈ tp.plan, t.id = id ∧ ∃ d ∈ t.inputs, d ∈ S) :
    ∀ id, Blocked tp S id →
    ∃ t ∈ tp.plan, t.id = id ∧ ∃ d ∈ t.inputs, Blocked tp S d := by
  intro id h
  induction h with
  | base id hid =>
    obtain ⟨t, ht, htid, d, hd, hdS⟩ := hS id hid
    exact ⟨t, ht, htid, d, hd, Blocked.base d hdS⟩
  | step t ht d hd hB _ =>
    exact ⟨t, ht, rfl, d, hd, hB⟩

theorem blocked_not_completed (tp : TasksPlan) (S : List String)
    (hS : ∀ id ∈ S, ∃ t ∈ tp.plan, t.id = id ∧ ∃ d ∈ t.inputs, d ∈ S) :
    ∀ (completed : List (String × TaskOutput)), OrderedClosed tp.plan completed →
    ∀ id ∈ keysOf completed, ¬Blocked tp S id := by
  intro completed
  induction completed using List.reverseRecOn with
  | nil =>
    intro _ id hid
    simp [keysOf] at hid
  | append_singleton ms e ih =>
    intro hord id hid hB
    obtain ⟨k, out⟩ := e
    have hord' : OrderedClosed tp.plan ms := orderedClosed_prefix tp.plan ms (k, out) hord
    rw [keysOf_append] at hid
    rcases List.mem_append.1 hid with hm | hm
    · exact ih hord' id hm hB
    · rw [show keysOf [(k, out)] = [k] from rfl, List.mem_singleton] at hm
      subst hm
      obtain ⟨t, ht, htid, d, hd, hBd⟩ := blocked_has_blocked_input tp S hS id hB
      have hkey : hasKey ms d = true := hord ms id out [] rfl t ht htid d hd
      exact ih hord' d ((hasKey_iff_mem ms d).1 hkey) hBd

/-! ### Core congruence between the canonical and the tool orchestrator -/

theorem core_eq_iff (s1 s2 : OrchSt) :
    s1.core = s2.core ↔
      (s1.completed = s2.completed ∧ s1.depCount = s2.depCount ∧ s1.ready = s2.ready) := by
  unfold OrchSt.core
  constructor
  · intro h
    exact ⟨congrArg (fun c => c.1) h, congrArg (fun c => c.2.1) h,
      congrArg (fun c => c.2.2) h⟩
  · rintro ⟨h1, h2, h3⟩
    rw [h1, h2, h3]

theorem decDependents_core_congr :
    ∀ (l : List String) (s1 s2 : OrchSt), s1.core = s2.core →
    (decDependents s1 l).1.core = (decDependents s2 l).1.core ∧
    (decDependents s1 l).2 = (decDependents s2 l).2 := by
  intro l
  induction l with
  | nil =>
    intro s1 s2 h
    rw [decDependents_nil, decDependents_nil]
    exact ⟨h, rfl⟩
  | cons d rest ih =>
    intro s1 s2 h
    obtain ⟨hc, hdc, hr⟩ := (core_eq_iff s1 s2).1 h
    rw [decDependents_cons, decDependents_cons]
    cases hl : lookupA s1.depCount d with
    | none =>
      have hl2 : lookupA s2.depCount d = none := by rw [← hdc]; exact hl
      have e1 : decStep s1 d = (s1, some (.keyError d)) := by simp [decStep, hl]
      have e2 : decStep s2 d = (s2, some (.keyError d)) := by simp [decStep, hl2]
      rw [e1, e2]
      exact ⟨h, rfl⟩
    | some c =>
      have hl2 : lookupA s2.depCount d = some c := by rw [← hdc]; exact hl
      by_cases hz : c - 1 = 0
      · have e1 : decStep s1 d
            = ({ s1 with depCount := insertAssoc s1.depCount d (c - 1),
                         ready := s1.ready ++ [d] }, none) := by
          simp [decStep, hl, hz]
        have e2 : decStep s2 d
            = ({ s2 with depCount := insertAssoc s2.depCount d (c - 1),
                         ready := s2.ready ++ [d] }, none) := by
          simp [decStep, hl2, hz]
        rw [e1, e2]
        refine ih _ _ ?_
        rw [core_eq_iff]
        exact ⟨hc, by rw [hdc], by rw [hr]⟩
      · have e1 : decStep s1 d
            = ({ s1 with depCount := insertAssoc s1.depCount d (c - 1) }, none) := by
          simp [decStep, hl, hz]
        have e2 : decStep s2 d
            = ({ s2 with depCount := insertAssoc s2.depCount d (c - 1) }, none) := by
          simp [decStep, hl2, hz]
        rw [e1, e2]
        refine ih _ _ ?_
        rw [core_eq_iff]
        exact ⟨hc, by rw [hdc], hr⟩

theorem runTaskGen_core_congr (tm : List (String × PlannerTask))
    (deps : List (String × List String))
    (mkP mkT : String → PlannerTask → List (String × TaskOutput) → String)
    (aP aT : String → Except OrchError TaskOutput)
    (hlink : ∀ id t r, aP (mkP id t r) = aT (mkT id t r)) :
    ∀ (s1 s2 : OrchSt), s1.core = s2.core → ∀ (id : String),
    (runTaskGen tm deps mkP aP s1 id).1.core = (runTaskGen tm deps mkT aT s2 id).1.core ∧
    (runTaskGen tm deps mkP aP s1 id).2 = (runTaskGen tm deps mkT aT s2 id).2 := by
  intro s1 s2 h id
  obtain ⟨hc, hdc, hr⟩ := (core_eq_iff s1 s2).1 h
  cases hlook : lookupA tm id with
  | none =>
    rw [show runTaskGen tm deps mkP aP s1 id
        = ({ s1 with log := s1.log ++ [OrchEvent.started id] }, some (.keyError id)) by
      simp only [runTaskGen, hlook]]
    rw [show runTaskGen tm deps mkT aT s2 id
        = ({ s2 with log := s2.log ++ [OrchEvent.started id] }, some (.keyError id)) by
      simp only [runTaskGen, hlook]]
    exact ⟨h, rfl⟩
  | some task =>
    cases hres : resolveInputs s1.completed task.inputs [] with
    | error e0 =>
      have hres2 : resolveInputs s2.completed task.inputs [] = .error e0 := by
        rw [← hc]; exact hres
      rw [show runTaskGen tm deps mkP aP s1 id
          = ({ s1 with log := s1.log ++ [OrchEvent.started id] }, some e0) by
        simp only [runTaskGen, hlook, hres]]
      rw [show runTaskGen tm deps mkT aT s2 id
          = ({ s2 with log := s2.log ++ [OrchEvent.started id] }, some e0) by
        simp only [runTaskGen, hlook, hres2]]
      exact ⟨h, rfl⟩
    | ok resolved =>
      have hres2 : resolveInputs s2.completed task.inputs [] = .ok resolved := by
        rw [← hc]; exact hres
      have hass := hlink id task resolved
      cases ha : aP (mkP id task resolved) with
      | error e1 =>
        have ha2 : aT (mkT id task resolved) = .error e1 := by rw [← hass]; exact ha
        rw [show runTaskGen tm deps mkP aP s1 id
            = ({ s1 with log := (s1.log ++ [OrchEvent.started id])
                ++ [OrchEvent.dispatched id (mkP id task resolved)] }, some e1) by
          simp only [runTaskGen, hlook, hres, ha]]
        rw [show runTaskGen tm deps mkT aT s2 id
            = ({ s2 with log := (s2.log ++ [OrchEvent.started id])
                ++ [OrchEvent.dispatched id (mkT id task resolved)] }, some e1) by
          simp only [runTaskGen, hlook, hres2, ha2]]
        exact ⟨h, rfl⟩
      | ok out =>
        have ha2 : aT (mkT id task resolved) = .ok out := by rw [← hass]; exact ha
        rw [show runTaskGen tm deps mkP aP s1 id
            = decDependents
                { s1 with completed := insertAssoc s1.completed id out,
                          log := ((s1.log ++ [OrchEvent.started id])
                            ++ [OrchEvent.dispatched id (mkP id task resolved)])
                            ++ [OrchEvent.wrote id out] }
                ((lookupA deps id).getD []) by
          simp only [runTaskGen, hlook, hres, ha]]
        rw [show runTaskGen tm deps mkT aT s2 id
            = decDependents
                { s2 with completed := insertAssoc s2.completed id out,
                          log := ((s2.log ++ [OrchEvent.started id])
                            ++ [OrchEvent.dispatched id (mkT id task resolved)])
                            ++ [OrchEvent.wrote id out] }
                ((lookupA deps id).getD []) by
          simp only [runTaskGen, hlook, hres2, ha2]]
        refine decDependents_core_congr _ _ _ ?_
        rw [core_eq_iff]
        exact ⟨by rw [hc], by rw [hdc], by rw [hr]⟩

theorem processBatch_core_congr (runP runT : OrchSt → String → OrchSt × Option OrchError)
    (hstep : ∀ (s1 s2 : OrchSt), s1.core = s2.core → ∀ id,
      (runP s1 id).1.core = (runT s2 id).1.core ∧ (runP s1 id).2 = (runT s2 id).2) :
    ∀ (batch : List String) (s1 s2 : OrchSt), s1.core = s2.core →
    (processBatch runP s1 batch).1.core = (processBatch runT s2 batch).1.core ∧
    (processBatch runP s1 batch).2 = (processBatch runT s2 batch).2 := by
  intro batch
  induction batch with
  | nil =>
    intro s1 s2 h
    rw [processBatch_nil, processBatch_nil]
    exact ⟨h, rfl⟩
  | cons id rest ih =>
    intro s1 s2 h
    rw [processBatch_cons, processBatch_cons]
    obtain ⟨hcore, herr⟩ := hstep s1 s2 h id
    cases h1 : runP s1 id with
    | mk st1 e1 =>
      cases h2 : runT s2 id with
      | mk st2 e2 =>
        rw [h1, h2] at hcore herr
        cases e1 with
        | none =>
          cases e2 with
          | none => exact ih st1 st2 hcore
          | some e => exact absurd herr (by simp)
        | some e =>
          cases e2 with
          | none => exact absurd herr (by simp)
          | some e' => exact ⟨hcore, herr⟩

theorem orchLoopCore_core_congr (runP runT : OrchSt → String → OrchSt × Option OrchError)
    (hstep : ∀ (s1 s2 : OrchSt), s1.core = s2.core → ∀ id,
      (runP s1 id).1.core = (runT s2 id).1.core ∧ (runP s1 id).2 = (runT s2 id).2) :
    ∀ (fuel : Nat) (s1 s2 : OrchSt), s1.core = s2.core →
    (orchLoopCore runP fuel s1).1.core = (orchLoopCore runT fuel s2).1.core ∧
    (orchLoopCore runP fuel s1).2 = (orchLoopCore runT fuel s2).2 := by
  intro fuel
  induction fuel with
  | zero =>
    intro s1 s2 h
    rw [orchLoopCore_zero, orchLoopCore_zero]
    exact ⟨h, rfl⟩
  | succ fuel ih =>
    intro s1 s2 h
    obtain ⟨hc, hdc, hr⟩ := (core_eq_iff s1 s2).1 h
    cases hready : s1.ready with
    | nil =>
      have hready2 : s2.ready = [] := by rw [← hr]; exact hready
      rw [show orchLoopCore runP (fuel + 1) s1 = (s1, none) by
        rw [orchLoopCore_succ, hready]]
      rw [show orchLoopCore runT (fuel + 1) s2 = (s2, none) by
        rw [orchLoopCore_succ, hready2]]
      exact ⟨h, rfl⟩
    | cons a rest =>
      have hready2 : s2.ready = a :: rest := by rw [← hr]; exact hready
      have hbcore : ({ s1 with ready := [] } : OrchSt).core
          = ({ s2 with ready := [] } : OrchSt).core := by
        rw [core_eq_iff]
        exact ⟨hc, hdc, rfl⟩
      obtain ⟨hpbcore, hpberr⟩ := processBatch_core_congr runP runT hstep (a :: rest)
        { s1 with ready := [] } { s2 with ready := [] } hbcore
      cases h1 : processBatch runP { s1 with ready := [] } (a :: rest) with
      | mk st1 e1 =>
        cases h2 : processBatch runT { s2 with ready := [] } (a :: rest) with
        | mk st2 e2 =>
          rw [h1, h2] at hpbcore hpberr
          rw [show orchLoopCore runP (fuel + 1) s1
              = (match processBatch runP { s1 with ready := [] } (a :: rest) with
                 | (st'', none) => orchLoopCore runP fuel st''
                 | (st'', some e) => (st'', some e)) by
            rw [orchLoopCore_succ, hready]]
          rw [show orchLoopCore runT (fuel + 1) s2
              = (match processBatch runT { s2 with ready := [] } (a :: rest) with
                 | (st'', none) => orchLoopCore runT fuel st''
                 | (st'', some e) => (st'', some e)) by
            rw [orchLoopCore_succ, hready2]]
          rw [h1, h2]
          cases e1 with
          | none =>
            cases e2 with
            | none => exact ih st1 st2 hpbcore
            | some e => exact absurd hpberr (by simp)
          | some e =>
            cases e2 with
            | none => exact absurd hpberr (by simp)
            | some e' => exact ⟨hpbcore, hpberr⟩

/-! ## Claim theorems -/

/-- C1, counterexample: the claim as stated fails on the code.  `planGhost`
has unique ids and an acyclic dependency graph, yet its only task references
an id that no task of the plan defines, so with a worker that always
succeeds the run returns a response with zero entries instead of one entry
per task; and `planChain` (unique ids, closed references, acyclic) run
against a worker that always raises a non-budget exception aborts with an
error instead of returning a response at all. -/
theorem c1_counterexample :
    (NodupIds planGhost ∧ AcyclicPlan planGhost ∧ planGhost.plan.length = 1 ∧
      (orchestratePatternRun okWorker (some planGhost)).result = .ok ⟨[]⟩) ∧
    (NodupIds planChain ∧ AcyclicPlan planChain ∧ ClosedRefs planChain ∧
      (orchestratePatternRun fatalWorker (some planChain)).result
        = .error (.workerFatal "boom")) := by
  refine ⟨⟨by decide, ⟨fun s => if s = "task-999" then 0 else 1, by decide⟩, by decide,
    by decide⟩, ⟨by decide, ⟨fun s => if s = "task-001" then 0 else 1, by decide⟩,
    by decide, by decide⟩⟩

/-- C1 (amended): for every Plan whose tasks have unique ids, whose declared
dependencies all reference tasks of the Plan, and whose dependency graph is
acyclic, and for every worker that never fails with a non-budget exception,
`_orchestrate_tasks` terminates normally and returns an
`OrchestratorResponse` whose `tasks_executed` mapping contains exactly one
entry per task id of the Plan (exactly N entries for N tasks), and during
the run each task id is written into the accumulator exactly once. -/
theorem c1_completeness (tp : TasksPlan) (w : String → WorkerOutcome)
    (hids : NodupIds tp) (hclosed : ClosedRefs tp) (hacyc : AcyclicPlan tp)
    (hw : NonFatalWorker w) :
    ∃ resp log, orchestratePatternRun w (some tp) = ⟨.ok resp, log⟩ ∧
      (keysOf resp.tasks_executed).Perm (planIds tp.plan) ∧
      resp.tasks_executed.length = tp.plan.length ∧
      (∀ id ∈ planIds tp.plan, writesFor log id = 1) := by
  rcases orchestratePatternRun_cases w tp hids with
    ⟨resp, log, hrun, hnd, hsub, hord, hsched, hstart, hwrites, hdk⟩ |
    ⟨msg, log, hrun, s, hws⟩
  · have hcompl := completeness_of_final tp hclosed hacyc resp.tasks_executed hsched
    have hplannd : (planIds tp.plan).Nodup := hids
    have hperm : (keysOf resp.tasks_executed).Perm (planIds tp.plan) := by
      apply (List.perm_ext_iff_of_nodup hnd hplannd).2
      intro a
      constructor
      · intro ha
        exact hsub a ha
      · intro ha
        obtain ⟨t, ht, htid⟩ := (mem_planIds_iff tp.plan a).1 ha
        have := hcompl t ht
        rw [htid] at this
        exact (hasKey_iff_mem _ _).1 this
    refine ⟨resp, log, hrun, hperm, ?_, ?_⟩
    · have h1 : (keysOf resp.tasks_executed).length = (planIds tp.plan).length :=
        hperm.length_eq
      simpa [keysOf, planIds] using h1
    · intro id hid
      have hmem : id ∈ keysOf resp.tasks_executed := hperm.mem_iff.2 hid
      unfold writesFor
      rw [hwrites]
      have hle := List.nodup_iff_count_le_one.1 hnd id
      have hpos := List.count_pos_iff.2 hmem
      omega
  · exact absurd hws (hw s msg)

/-- C1 witness: the amended claim instantiated on the two-task chain plan
with an always-succeeding worker. -/
theorem c1_completeness_witness :
    NodupIds planChain ∧ ClosedRefs planChain ∧ AcyclicPlan planChain ∧
    NonFatalWorker okWorker ∧
    (∃ resp log, orchestratePatternRun okWorker (some planChain) = ⟨.ok resp, log⟩ ∧
      (keysOf resp.tasks_executed).Perm (planIds planChain.plan) ∧
      resp.tasks_executed.length = planChain.plan.length ∧
      (∀ id ∈ planIds planChain.plan, writesFor log id = 1)) := by
  have hids : NodupIds planChain := by decide
  have hclosed : ClosedRefs planChain := by decide
  have hacyc : AcyclicPlan planChain := ⟨fun s => if s = "task-001" then 0 else 1, by decide⟩
  have hw : NonFatalWorker okWorker := fun _ _ h => by simp [okWorker] at h
  exact ⟨hids, hclosed, hacyc, hw,
    c1_completeness planChain okWorker hids hclosed hacyc hw⟩

/-- C2: evaluating `_assign_task`'s degraded path at the failing input.  For
task `task-007` and a worker stub that always signals an exhausted budget
with no usable result, the run stores under accumulator key "task-007" a
synthesized TaskOutput whose id field is the sentinel "task-000" (not
"task-007" as the claim states) with the capitalized, period-terminated
message in the `errors` field (not the lowercase message of the claim). -/
theorem c2_degraded_eval :
    (orchestratePatternRun budgetWorker (some plan007)).result
      = .ok ⟨[("task-007", degradedOut)]⟩ ∧
    degradedOut.output = "" ∧
    degradedOut.id = "task-000" ∧
    degradedOut.id ≠ "task-007" ∧
    degradedOut.errors
      = some "Worker exceeded the allowed interaction steps and could not complete the task." ∧
    degradedOut.errors
      ≠ some "worker exceeded the allowed interaction steps and could not complete the task" := by
  exact ⟨by decide, rfl, rfl, by decide, rfl, by decide⟩

/-- C3, counterexample: the claim as stated fails on the code.  In `planDup`
(duplicate id "task-002", whose second occurrence is a self-loop forming a
cyclic subset) the cyclic task id is dispatched and the run raises a
`KeyError` instead of terminating normally; and in `planCyc` (unique ids,
cycle between task-001 and task-002) a worker that fails fatally on the
independent task aborts the run with an error, so the loop does not
terminate normally for arbitrary workers. -/
theorem c3_counterexample :
    (CyclicSubset planDup ["task-002"] ∧
      (orchestratePatternRun okWorker (some planDup)).result = .error (.keyError "task-002") ∧
      OrchEvent.started "task-002" ∈ (orchestratePatternRun okWorker (some planDup)).log) ∧
    (NodupIds planCyc ∧ CyclicSubset planCyc ["task-001", "task-002"] ∧
      (orchestratePatternRun fatalWorker (some planCyc)).result
        = .error (.workerFatal "boom")) := by
  exact ⟨⟨by decide, by decide, by decide⟩, ⟨by decide, by decide, by decide⟩⟩

/-- C3 (amended): for every Plan with unique task ids whose dependency graph
contains a cycle among a subset of tasks, and every worker that never fails
with a non-budget exception, no task of the cyclic subset (nor any task
transitively depending on it) is ever dispatched, and the scheduler loop
terminates normally, returning a RunResult that omits those tasks without
raising any error. -/
theorem c3_cycle_truncation (tp : TasksPlan) (w : String → WorkerOutcome) (S : List String)
    (hids : NodupIds tp) (hw : NonFatalWorker w) (hcyc : CyclicSubset tp S) :
    ∃ resp log, orchestratePatternRun w (some tp) = ⟨.ok resp, log⟩ ∧
      ∀ id, Blocked tp S id →
        hasKey resp.tasks_executed id = false ∧
        OrchEvent.started id ∉ log ∧
        (∀ p, OrchEvent.dispatched id p ∉ log) := by
  rcases orchestratePatternRun_cases w tp hids with
    ⟨resp, log, hrun, hnd, hsub, hord, hsched, hstart, hwrites, hdk⟩ |
    ⟨msg, log, hrun, s, hws⟩
  · refine ⟨resp, log, hrun, ?_⟩
    intro id hB
    have hnotkey : ¬ id ∈ keysOf resp.tasks_executed := fun hmem =>
      blocked_not_completed tp S hcyc.2 resp.tasks_executed hord id hmem hB
    refine ⟨(hasKey_eq_false_iff _ _).2 hnotkey, ?_, ?_⟩
    · intro hmem
      apply hnotkey
      rw [← hstart]
      exact List.mem_filterMap.2 ⟨OrchEvent.started id, hmem, rfl⟩
    · intro p hmem
      exact hnotkey (hdk id p hmem)
  · exact absurd hws (hw s msg)

/-- C3 witness: the amended claim instantiated on the plan with the cycle
`task-001 ↔ task-002` plus the independent `task-003`, with an
always-succeeding worker. -/
theorem c3_cycle_truncation_witness :
    NodupIds planCyc ∧ NonFatalWorker okWorker ∧
    CyclicSubset planCyc ["task-001", "task-002"] ∧
    (∃ resp log, orchestratePatternRun okWorker (some planCyc) = ⟨.ok resp, log⟩ ∧
      ∀ id, Blocked planCyc ["task-001", "task-002"] id →
        hasKey resp.tasks_executed id = false ∧
        OrchEvent.started id ∉ log ∧
        (∀ p, OrchEvent.dispatched id p ∉ log)) := by
  have hids : NodupIds planCyc := by decide
  have hw : NonFatalWorker okWorker := fun _ _ h => by simp [okWorker] at h
  have hcyc : CyclicSubset planCyc ["task-001", "task-002"] := by decide
  exact ⟨hids, hw, hcyc, c3_cycle_truncation planCyc okWorker _ hids hw hcyc⟩

/-- C4: dependency-ordering invariant.  For every Plan with unique task ids
and acyclic dependencies and every worker, whenever a task id is dispatched
(its payload event appears in the run log), every declared input of the
dispatched task already has a committed result written earlier in the log;
moreover the dependency lookups never miss: the run never raises a
`KeyError`. -/
theorem c4_dependency_ordering (tp : TasksPlan) (w : String → WorkerOutcome)
    (hids : NodupIds tp) (_hacyc : AcyclicPlan tp) :
    (∀ pre id p post,
      (orchestratePatternRun w (some tp)).log = pre ++ OrchEvent.dispatched id p :: post →
      ∀ t, lookupA (buildTaskMap tp.plan) id = some t →
        ∀ d ∈ t.inputs, ∃ out, OrchEvent.wrote d out ∈ pre) ∧
    (∀ k, (orchestratePatternRun w (some tp)).result ≠ .error (.keyError k)) := by
  constructor
  · intro pre id p post hdec t hlook d hd
    obtain ⟨t', hlook', hdeps, _⟩ := orchestratePatternRun_sound w tp pre id p post hdec
    rw [hlook] at hlook'
    cases hlook'
    exact hdeps d hd
  · intro k hk
    rcases orchestratePatternRun_cases w tp hids with
      ⟨resp, log, hrun, _⟩ | ⟨msg, log, hrun, _⟩
    · rw [hrun] at hk
      simp at hk
    · rw [hrun] at hk
      simp at hk

/-- C4 witness: the dependency-ordering invariant instantiated on the
two-task chain plan with an always-succeeding worker. -/
theorem c4_dependency_ordering_witness :
    NodupIds planChain ∧ AcyclicPlan planChain ∧
    ((∀ pre id p post,
      (orchestratePatternRun okWorker (some planChain)).log
        = pre ++ OrchEvent.dispatched id p :: post →
      ∀ t, lookupA (buildTaskMap planChain.plan) id = some t →
        ∀ d ∈ t.inputs, ∃ out, OrchEvent.wrote d out ∈ pre) ∧
    (∀ k, (orchestratePatternRun okWorker (some planChain)).result
      ≠ .error (.keyError k))) := by
  have hids : NodupIds planChain := by decide
  have hacyc : AcyclicPlan planChain := ⟨fun s => if s = "task-001" then 0 else 1, by decide⟩
  exact ⟨hids, hacyc, c4_dependency_ordering planChain okWorker hids hacyc⟩

/-- C5: graph-builder postconditions.  For every Plan with unique task ids,
the pre-loop scheduling state satisfies: the dependency count of each task
id equals the number of its declared inputs; the dependents list of each id
`d` contains a task's id once per occurrence of `d` in that task's inputs;
and the initial ready queue is exactly the ids of the zero-input tasks in
Plan order. -/
theorem c5_graph_builder (tp : TasksPlan) (hids : NodupIds tp) :
    (∀ t ∈ tp.plan, lookupA (buildDepCount tp.plan) t.id = some (t.inputs.length : Int)) ∧
    (∀ t ∈ tp.plan, ∀ d : String,
      ((lookupA (buildDependents tp.plan) d).getD []).count t.id = t.inputs.count d) ∧
    initReady (buildDepCount tp.plan)
      = (tp.plan.filter (fun t => t.inputs.length == 0)).map (fun t => t.id) := by
  refine ⟨?_, ?_, initReady_eq tp.plan hids⟩
  · intro t ht
    exact buildDepCount_lookup tp.plan hids t ht
  · intro t ht d
    rw [buildDependents_at tp.plan d]
    exact depListSpec_count tp.plan hids t ht d

/-- C5 witness: the graph-builder postconditions instantiated on the
three-task plan containing a dependency cycle. -/
theorem c5_graph_builder_witness :
    NodupIds planCyc ∧
    ((∀ t ∈ planCyc.plan,
      lookupA (buildDepCount planCyc.plan) t.id = some (t.inputs.length : Int)) ∧
    (∀ t ∈ planCyc.plan, ∀ d : String,
      ((lookupA (buildDependents planCyc.plan) d).getD []).count t.id = t.inputs.count d) ∧
    initReady (buildDepCount planCyc.plan)
      = (planCyc.plan.filter (fun t => t.inputs.length == 0)).map (fun t => t.id)) := by
  have hids : NodupIds planCyc := by decide
  exact ⟨hids, c5_graph_builder planCyc hids⟩

/-- C6: empty versus absent plan.  Orchestrating an absent (`none`) Plan
reference fails with the nil-plan error, while orchestrating a present Plan
with zero tasks returns a response with zero entries and no error, for
every worker and every goal string. -/
theorem c6_empty_vs_nil_plan (w : String → WorkerOutcome) (g : String) :
    (orchestratePatternRun w none).result = .error .nilPlan ∧
    (orchestratePatternRun w (some ⟨g, []⟩)).result = .ok ⟨[]⟩ :=
  ⟨rfl, rfl⟩

/-- C7: payload composition.  For every Plan and worker, every dispatched
payload appearing in the run log is the deterministic prompt built from the
dispatched task's instructions, success criteria, the accumulator of all
results written before the dispatch restricted exactly to the task's
declared inputs, and the task's notes, with absent notes rendering as the
explicit "None" placeholder. -/
theorem c7_payload_composition (tp : TasksPlan) (w : String → WorkerOutcome) :
    ∀ pre id p post,
      (orchestratePatternRun w (some tp)).log = pre ++ OrchEvent.dispatched id p :: post →
      ∃ t, lookupA (buildTaskMap tp.plan) id = some t ∧
        p = mkPromptPattern id t (restrictFrom [] (accumOfLog pre) t.inputs) ∧
        (t.notes = none → renderNotes t.notes = "None") := by
  intro pre id p post hdec
  obtain ⟨t, hlook, _, hp⟩ := orchestratePatternRun_sound w tp pre id p post hdec
  exact ⟨t, hlook, hp, fun hn => by rw [hn]; rfl⟩

/-- C7 witness: a concrete decomposition of the single-task run log with its
dispatched payload, fed to the payload-composition theorem. -/
theorem c7_payload_composition_witness :
    ((orchestratePatternRun okWorker (some plan007)).log
      = [OrchEvent.started "task-007"]
        ++ OrchEvent.dispatched "task-007"
            (mkPromptPattern "task-007" ⟨"task-007", "do it", "it is done", [], none⟩ [])
          :: [OrchEvent.wrote "task-007" ⟨"task-xxx", "done", none⟩]) ∧
    (∃ t, lookupA (buildTaskMap plan007.plan) "task-007" = some t ∧
      mkPromptPattern "task-007" ⟨"task-007", "do it", "it is done", [], none⟩ []
        = mkPromptPattern "task-007" t
            (restrictFrom [] (accumOfLog [OrchEvent.started "task-007"]) t.inputs) ∧
      (t.notes = none → renderNotes t.notes = "None")) := by
  have hdec : (orchestratePatternRun okWorker (some plan007)).log
      = [OrchEvent.started "task-007"]
        ++ OrchEvent.dispatched "task-007"
            (mkPromptPattern "task-007" ⟨"task-007", "do it", "it is done", [], none⟩ [])
          :: [OrchEvent.wrote "task-007" ⟨"task-xxx", "done", none⟩] := by decide
  exact ⟨hdec, c7_payload_composition plan007 okWorker _ "task-007" _ _ hdec⟩

/-- C8: fatal propagation of non-budget worker failures.  For every Plan and
worker, if some dispatched payload makes the worker fail with a non-budget
fatal error, the whole run aborts with a worker-fatal error and no response
is returned to the caller. -/
theorem c8_fatal_propagation (tp : TasksPlan) (w : String → WorkerOutcome)
    (h : ∃ id p msg, OrchEvent.dispatched id p ∈ (orchestratePatternRun w (some tp)).log ∧
      w p = .fatal msg) :
    ∃ msg, (orchestratePatternRun w (some tp)).result = .error (.workerFatal msg) := by
  by_contra hno
  push_neg at hno
  have hnf := orchestratePatternRun_noFatal w tp hno
  obtain ⟨id, p, msg, hmem, hwp⟩ := h
  exact hnf id p hmem msg hwp

/-- C8 witness: fatal propagation instantiated on the one-task plan with a
worker that always fails fatally. -/
theorem c8_fatal_propagation_witness :
    (∃ id p msg,
      OrchEvent.dispatched id p ∈ (orchestratePatternRun fatalWorker (some planOne)).log ∧
      fatalWorker p = .fatal msg) ∧
    (∃ msg, (orchestratePatternRun fatalWorker (some planOne)).result
      = .error (.workerFatal msg)) := by
  have h : ∃ id p msg,
      OrchEvent.dispatched id p ∈ (orchestratePatternRun fatalWorker (some planOne)).log ∧
      fatalWorker p = .fatal msg :=
    ⟨"task-001", mkPromptPattern "task-001" ⟨"task-001", "do it", "it is done", [], none⟩ [],
      "boom", by decide, rfl⟩
  exact ⟨h, c8_fatal_propagation planOne fatalWorker h⟩

/-- C9, counterexample: the claim as stated fails on the code.  With a
worker that signals budget exhaustion with no usable result on `plan007`,
the canonical implementation returns a degraded response while the
standalone tool (which has no MaxTurnsExceeded handler) aborts with an
error, so the results differ; and even with an always-succeeding worker the
dispatched payloads differ, because the tool's prompt omits the "Task ID:"
header the canonical prompt carries. -/
theorem c9_counterexample :
    (orchestratePatternRun budgetWorker (some plan007)).result
      ≠ (orchestrateToolRun budgetWorker (some plan007)).result ∧
    (orchestratePatternRun okWorker (some plan007)).log
      ≠ (orchestrateToolRun okWorker (some plan007)).log := by
  exact ⟨by decide, by decide⟩

/-- C9 (amended): the standalone tool implementation is equivalent to the
canonical one only on the fatal-free budget-free fragment: for every
(possibly absent) Plan, a pattern worker and a tool worker that agree
modulo the differing prompt headers, if the tool worker never signals
budget exhaustion then the two orchestrators return equal results. -/
theorem c9_equiv_amended (tpOpt : Option TasksPlan) (wP wT : String → WorkerOutcome)
    (hlink : ∀ id t r, wP (mkPromptPattern id t r) = wT (mkPromptTool t r))
    (hnb : NoBudgetSignal wT) :
    (orchestratePatternRun wP tpOpt).result = (orchestrateToolRun wT tpOpt).result := by
  have hassign : ∀ id t r, assignTaskPattern wP (mkPromptPattern id t r)
      = assignTaskTool wT (mkPromptTool t r) := by
    intro id t r
    have h := hlink id t r
    have hb := hnb (mkPromptTool t r)
    cases hw : wT (mkPromptTool t r) with
    | ok out => simp [assignTaskPattern, assignTaskTool, h, hw]
    | maxTurnsWithResult out =>
      rw [hw] at hb
      simp [WorkerOutcome.isBudgetSignal] at hb
    | maxTurnsNoResult =>
      rw [hw] at hb
      simp [WorkerOutcome.isBudgetSignal] at hb
    | fatal msg => simp [assignTaskPattern, assignTaskTool, h, hw]
  cases tpOpt with
  | none => rfl
  | some tp =>
    rw [orchestratePatternRun_some, orchestrateToolRun_some]
    by_cases hlen : tp.plan.length < 1
    · simp only [if_pos hlen]
    · simp only [if_neg hlen]
      have hstep := runTaskGen_core_congr (buildTaskMap tp.plan) (buildDependents tp.plan)
        mkPromptPattern (fun _ task resolved => mkPromptTool task resolved)
        (assignTaskPattern wP) (assignTaskTool wT) (fun id t r => hassign id t r)
      obtain ⟨hcore, herr⟩ := orchLoopCore_core_congr _ _ hstep (tp.plan.length + 1)
        ⟨[], buildDepCount tp.plan, initReady (buildDepCount tp.plan), []⟩
        ⟨[], buildDepCount tp.plan, initReady (buildDepCount tp.plan), []⟩ rfl
      cases h1 : orchLoopCore
          (runTaskGen (buildTaskMap tp.plan) (buildDependents tp.plan) mkPromptPattern
            (assignTaskPattern wP))
          (tp.plan.length + 1)
          ⟨[], buildDepCount tp.plan, initReady (buildDepCount tp.plan), []⟩ with
      | mk s1 e1 =>
        cases h2 : orchLoopCore
            (runTaskGen (buildTaskMap tp.plan) (buildDependents tp.plan)
              (fun _ task resolved => mkPromptTool task resolved) (assignTaskTool wT))
            (tp.plan.length + 1)
            ⟨[], buildDepCount tp.plan, initReady (buildDepCount tp.plan), []⟩ with
        | mk s2 e2 =>
          rw [h1, h2] at hcore herr
          simp only at hcore herr
          obtain ⟨hc, -, -⟩ := (core_eq_iff s1 s2).1 hcore
          cases e1 with
          | none =>
            cases e2 with
            | none => simp [hc]
            | some e => exact absurd herr (by simp)
          | some e =>
            cases e2 with
            | none => exact absurd herr (by simp)
            | some e' =>
              have he : e = e' := by injection herr
              simp [he]

/-- C9 witness: the amended equivalence instantiated on the two-task chain
plan with an always-succeeding worker that ignores its prompt, which is
therefore linked with itself and budget-free. -/
theorem c9_equiv_witness :
    (∀ id t r, okWorker (mkPromptPattern id t r) = okWorker (mkPromptTool t r)) ∧
    NoBudgetSignal okWorker ∧
    (orchestratePatternRun okWorker (some planChain)).result
      = (orchestrateToolRun okWorker (some planChain)).result := by
  have h1 : ∀ id t r, okWorker (mkPromptPattern id t r) = okWorker (mkPromptTool t r) :=
    fun _ _ _ => by simp only [okWorker]
  have h2 : NoBudgetSignal okWorker := fun _ => rfl
  exact ⟨h1, h2, c9_equiv_amended (some planChain) okWorker okWorker h1 h2⟩

/-- C10: budget-exceeded salvage branch.  Whenever the worker signals the
interaction-budget-exceeded condition but carries a usable partial result,
`_assign_task` returns that result as if the task completed normally and
does not synthesize the degraded error TaskResult. -/
theorem c10_budget_salvage (w : String → WorkerOutcome) (p : String) (out : TaskOutput)
    (h : w p = .maxTurnsWithResult out) :
    assignTaskPattern w p = .ok out := by
  unfold assignTaskPattern
  rw [h]

/-- C10 witness: the salvage branch instantiated on a constant worker that
always signals budget exhaustion carrying a partial result. -/
theorem c10_budget_salvage_witness :
    (fun _ : String => WorkerOutcome.maxTurnsWithResult ⟨"task-042", "partial", none⟩) "x"
      = WorkerOutcome.maxTurnsWithResult ⟨"task-042", "partial", none⟩ ∧
    assignTaskPattern
        (fun _ : String => WorkerOutcome.maxTurnsWithResult ⟨"task-042", "partial", none⟩) "x"
      = .ok ⟨"task-042", "partial", none⟩ :=
  ⟨rfl, c10_budget_salvage _ "x" _ rfl⟩
